import Mathlib

/-!
Shallow embedding of the MacroRecorder core (event codec and playback engine)
and verification of its specification claims.

Sources embedded:
* `src/events.rs` — `EventType`, `MacroEvent`, `to_mcr_line`, `from_mcr_line`.
* `src/player.rs` — `MacroPlayer` (load/start/pause/resume/stop/position),
  `play_events`, `execute_event`, `key_name_to_vk_code`.
* `src/hooks.rs` — `vk_code_to_string`.

Modelling conventions:
* Rust `&str` values are modelled as `List Char`.  UTF-8 byte-wise string
  ordering (`BTreeMap<String, _>`) coincides with code-point lexicographic
  ordering on `List Char` because UTF-8 is order-preserving.
* `f64` values are modelled by `FVal`: an exact rational for finite values
  plus `nan` / `inf` / `neginf`.  Finite values are idealized as exact
  rationals (binary rounding is ignored); none of the claims below depend on
  binary rounding behaviour.  Rust's `{:.6}` formatting rounds to six
  fractional digits; the round-trip theorems only apply it to exact multiples
  of 10⁻⁶, where every rounding mode agrees.
* `serde_json::Value` payloads in this program are always objects whose
  values are strings or integers, modelled by `Jmap` — an association list
  kept sorted by key, mirroring `BTreeMap` (so structural equality is map
  equality, as in `serde_json`).
* Machine integer casts (`as u32`, `as i32`) are modelled by explicit
  wrapping on `Int`.
-/

namespace MacroRecorder

abbrev Chars := List Char

/-- Model of Rust `char::is_whitespace`: the full Unicode White_Space set —
U+0009..U+000D, U+0020, U+0085, U+00A0, U+1680, U+2000..U+200A, U+2028,
U+2029, U+202F, U+205F and U+3000.  `str::trim` strips these from both
ends. -/
def isWs (c : Char) : Bool :=
  (0x9 ≤ c.toNat && c.toNat ≤ 0xD) || c.toNat = 0x20 || c.toNat = 0x85 ||
    c.toNat = 0xA0 || c.toNat = 0x1680 || (0x2000 ≤ c.toNat && c.toNat ≤ 0x200A) ||
    c.toNat = 0x2028 || c.toNat = 0x2029 || c.toNat = 0x202F || c.toNat = 0x205F ||
    c.toNat = 0x3000

/-- Model of Rust `str::trim`. -/
def trimChars (l : Chars) : Chars :=
  ((l.dropWhile isWs).reverse.dropWhile isWs).reverse

/-- Model of Rust `str::split_once(sep)`: split at the first occurrence of a
character satisfying `p`. -/
def splitOnceBy (p : Char → Bool) : Chars → Option (Chars × Chars)
  | [] => none
  | c :: rest =>
    if p c then some ([], rest)
    else
      match splitOnceBy p rest with
      | some (a, b) => some (c :: a, b)
      | none => none

/-- Model of Rust `str::split_once(c)` for a single separator character. -/
def splitOnceAt (sep : Char) (l : Chars) : Option (Chars × Chars) :=
  splitOnceBy (fun c => c = sep) l

/-- Byte-wise (equivalently code-point-wise) lexicographic order on strings,
the `Ord` used by `BTreeMap<String, _>`. -/
def ltChars : Chars → Chars → Bool
  | [], [] => false
  | [], _ :: _ => true
  | _ :: _, [] => false
  | a :: as, b :: bs => if a < b then true else if b < a then false else ltChars as bs

/-- The decimal digit character for `d < 10`. -/
def digitChar (d : Nat) : Char := Char.ofNat (48 + d)

/-- Fuel-based big-endian decimal digit rendering (the fuel makes the
definition kernel-reducible; `natToChars_aux_eq` relates it to `Nat.digits`). -/
def natToCharsAux : Nat → Nat → Chars
  | 0, _ => []
  | fuel + 1, n => if n = 0 then [] else natToCharsAux fuel (n / 10) ++ [digitChar (n % 10)]

/-- Model of Rust's decimal `Display` for unsigned integers. -/
def natToChars (n : Nat) : Chars :=
  if n = 0 then ['0'] else natToCharsAux n n

/-- Model of Rust's decimal `Display` for signed integers. -/
def intToChars (n : Int) : Chars :=
  if n < 0 then '-' :: natToChars (-n).toNat else natToChars n.toNat

/-- Numeric value of a decimal digit character. -/
def charVal (c : Char) : Nat := c.toNat - 48

/-- Accumulate the decimal value of a digit string. -/
def charsToNat (l : Chars) : Nat := l.foldl (fun a c => 10 * a + charVal c) 0

/-- All characters are decimal digits. -/
def allDigits (l : Chars) : Bool := l.all Char.isDigit

/-- Parse a non-empty all-digit string to its value. -/
def parseNatDigits (l : Chars) : Option Nat :=
  if l.isEmpty || !allDigits l then none else some (charsToNat l)

/-- Strip one optional leading `+` (the sign of Rust's unsigned `from_str`
grammar). -/
def stripPlus : Chars → Chars
  | [] => []
  | c :: r => if c = '+' then r else c :: r

/-- Strip one optional leading sign, returning whether it was `-` (the sign
of Rust's signed `from_str` grammars). -/
def splitSign : Chars → Bool × Chars
  | [] => (false, [])
  | c :: r => if c = '-' then (true, r) else if c = '+' then (false, r) else (false, c :: r)

/-- Model of Rust `u16::from_str`: optional `+` sign, digits, overflow is an
error. -/
def parseU16 (l : Chars) : Option Nat :=
  match parseNatDigits (stripPlus l) with
  | some n => if n < 65536 then some n else none
  | none => none

/-- Model of Rust `i64::from_str`: optional sign, digits, overflow is an
error. -/
def parseI64 (l : Chars) : Option Int :=
  let s := splitSign l
  (parseNatDigits s.2).bind fun n =>
    if s.1 then
      if (n : Int) ≤ 2 ^ 63 then some (-(n : Int)) else none
    else
      if (n : Int) ≤ 2 ^ 63 - 1 then some (n : Int) else none

/-- Model of an `f64` value: an exact rational for finite values, plus the
non-finite values `f64::from_str` can produce. -/
inductive FVal where
  | finite (q : ℚ)
  | nan
  | inf
  | neginf
deriving DecidableEq, Repr

def FVal.isNan : FVal → Bool
  | .nan => true
  | _ => false

def lowerChars (l : Chars) : Chars := l.map Char.toLower

/-- Mantissa of the `f64::from_str` grammar: `digits`, `digits.digits?` or
`.digits`, valued as the exact rational
`intpart + fracpart / 10^fraclen` (built with `mkRat` so that it is
kernel-reducible). -/
def parseMantissa (l : Chars) : Option ℚ :=
  match splitOnceAt '.' l with
  | none => (parseNatDigits l).map fun n => (n : ℚ)
  | some (ip, fp) =>
    if ip.isEmpty && fp.isEmpty then none
    else if allDigits ip && allDigits fp then
      some (mkRat (charsToNat ip * 10 ^ fp.length + charsToNat fp) (10 ^ fp.length))
    else none

/-- Exponent suffix of the `f64::from_str` grammar. -/
def parseExp (l : Chars) : Option Int :=
  let s := splitSign l
  (parseNatDigits s.2).map fun n => if s.1 then -(n : Int) else (n : Int)

/-- Scale a rational by `10^ex` (kernel-reducible form of `q * 10 ^ ex`). -/
def scalePow10 (q : ℚ) (ex : Int) : ℚ :=
  if 0 ≤ ex then mkRat (q.num * 10 ^ ex.toNat) q.den
  else mkRat q.num (q.den * 10 ^ (-ex).toNat)

/-- A finite number of the `f64::from_str` grammar (mantissa with optional
exponent). -/
def parseNumber (l : Chars) : Option ℚ :=
  match splitOnceBy (fun c => c = 'e' || c = 'E') l with
  | none => parseMantissa l
  | some (m, e) =>
    match parseMantissa m, parseExp e with
    | some q, some ex => some (scalePow10 q ex)
    | _, _ => none

/-- Model of Rust `f64::from_str` (`parts[0].parse::<f64>()` in
`from_mcr_line`): optional sign, then a case-insensitive `inf`, `infinity` or
`nan`, or a decimal number with optional exponent.  In particular negative,
NaN and infinite values parse successfully. -/
def parseFloat (l : Chars) : Option FVal :=
  let s := splitSign l
  let neg := s.1
  let rest := s.2
  let low := lowerChars rest
  if low = ['i', 'n', 'f'] || low = ['i', 'n', 'f', 'i', 'n', 'i', 't', 'y'] then
    some (if neg then FVal.neginf else FVal.inf)
  else if low = ['n', 'a', 'n'] then some FVal.nan
  else
    match parseNumber rest with
    | some q => some (FVal.finite (if neg then -q else q))
    | none => none

/-- Six-fractional-digit decimal rendering of `m` micro-units
(`m / 10⁶` seconds), with the fractional part zero-padded to width 6. -/
def fmt6Nat (m : Nat) : Chars :=
  let fp := natToChars (m % 1000000)
  natToChars (m / 1000000) ++ '.' :: (List.replicate (6 - fp.length) '0' ++ fp)

/-- Number of micro-units of `|q|`, rounded to nearest:
`⌊|q| * 10⁶ + 1/2⌋` computed on the numerator and denominator. -/
def microRound (q : ℚ) : Int :=
  Int.fdiv (2 * q.num.natAbs * 1000000 + q.den) (2 * q.den)

/-- Model of Rust `format!("{:.6}", t)`: round the absolute value to six
fractional digits, with a leading `-` for negative values.  On exact
multiples of 10⁻⁶ (the only finite values the theorems below apply it to)
every rounding mode agrees. -/
def fmt6 : FVal → Chars
  | .finite q =>
    if q < 0 then '-' :: fmt6Nat (microRound q).toNat
    else fmt6Nat (microRound q).toNat
  | .nan => ['N', 'a', 'N']
  | .inf => ['i', 'n', 'f']
  | .neginf => ['-', 'i', 'n', 'f']

/-- Total order used by the playback sort: `partial_cmp` on `f64` is total on
the non-NaN values (`-inf < finite < inf`); `nan` is placed on top so that the
Lean relation is transitive and total everywhere (the sorting code path never
reaches it: a NaN timestamp makes the sort panic, see `sort_by_timestamp`). -/
def FVal.fle : FVal → FVal → Bool
  | _, .nan => true
  | .nan, _ => false
  | .neginf, _ => true
  | _, .neginf => false
  | .finite p, .finite q => decide (p ≤ q)
  | .finite _, .inf => true
  | .inf, .inf => true
  | .inf, .finite _ => false

/-- Model of Rust `Vec::join(";")` on the list of line parts. -/
def joinSemi : List Chars → Chars
  | [] => []
  | [p] => p
  | p :: ps => p ++ ';' :: joinSemi ps

/-- A `serde_json::Value` payload value as used by this program: a string or
an integer (`serde_json::Number` holds only integers here). -/
inductive JVal where
  | str (s : Chars)
  | num (n : Int)
deriving DecidableEq, Repr

/-- A `serde_json::Map<String, Value>` (a `BTreeMap`): an association list
kept sorted by key, so structural equality is map equality. -/
abbrev Jmap := List (Chars × JVal)

/-- Model of `BTreeMap::insert`: sorted insertion, replacing the value when the key is
present. -/
def Jmap.insert : Jmap → Chars → JVal → Jmap
  | [], k, v => [(k, v)]
  | (k', v') :: rest, k, v =>
    if ltChars k k' then (k, v) :: (k', v') :: rest
    else if k = k' then (k, v) :: rest
    else (k', v') :: Jmap.insert rest k v

/-- Model of `Value::get(key)` on an object. -/
def Jmap.get : Jmap → Chars → Option JVal
  | [], _ => none
  | (k', v') :: rest, k => if k = k' then some v' else Jmap.get rest k

/-- Model of `Value::as_str`. -/
def JVal.as_str : JVal → Option Chars
  | .str s => some s
  | .num _ => none

/-- Model of `Value::as_i64`: succeeds only on integers in the `i64` range. -/
def JVal.as_i64 : JVal → Option Int
  | .num n => if -(2 ^ 63) ≤ n ∧ n ≤ 2 ^ 63 - 1 then some n else none
  | .str _ => none

/-- Model of `Value::as_u64`: succeeds only on integers in the `u64` range. -/
def JVal.as_u64 : JVal → Option Int
  | .num n => if 0 ≤ n ∧ n ≤ 2 ^ 64 - 1 then some n else none
  | .str _ => none

/-- Model of `events.rs`: the `EventType` enumeration. -/
inductive EventType where
  | KeyDown
  | KeyUp
  | MouseMove
  | MouseDown
  | MouseUp
  | MouseScroll
deriving DecidableEq, Repr

/-- Model of `events.rs`: the `Display` impl for `EventType` (the short codes). -/
def EventType.code : EventType → Chars
  | .KeyDown => "KDOWN".toList
  | .KeyUp => "KUP".toList
  | .MouseMove => "MMOVE".toList
  | .MouseDown => "MDOWN".toList
  | .MouseUp => "MUP".toList
  | .MouseScroll => "MSCROLL".toList

/-- Model of `events.rs`: `EventType::from_str`. -/
def EventType.fromCode (s : Chars) : Option EventType :=
  if s = "KDOWN".toList then some .KeyDown
  else if s = "KUP".toList then some .KeyUp
  else if s = "MMOVE".toList then some .MouseMove
  else if s = "MDOWN".toList then some .MouseDown
  else if s = "MUP".toList then some .MouseUp
  else if s = "MSCROLL".toList then some .MouseScroll
  else none

/-- Model of `events.rs`: the `MacroEvent` struct. -/
structure MacroEvent where
  timestamp : FVal
  event_type : EventType
  data : Jmap
deriving DecidableEq, Repr

/-- Model of `events.rs` `to_mcr_line`: the `;`-joined line — timestamp with six
fractional digits, the short code, then the kind-specific `key=value` fields
(omitted when the required attributes are absent or of the wrong type). -/
def MacroEvent.to_mcr_line (e : MacroEvent) : Chars :=
  let dataParts : List Chars :=
    match e.event_type with
    | .KeyDown | .KeyUp =>
      match (e.data.get "key_name".toList).bind JVal.as_str with
      | some s => ["char=".toList ++ s]
      | none => []
    | .MouseMove =>
      match (e.data.get "x".toList).bind JVal.as_i64,
            (e.data.get "y".toList).bind JVal.as_i64 with
      | some xv, some yv => ["x=".toList ++ intToChars xv, "y=".toList ++ intToChars yv]
      | _, _ => []
    | .MouseDown | .MouseUp =>
      match (e.data.get "x".toList).bind JVal.as_i64,
            (e.data.get "y".toList).bind JVal.as_i64,
            (e.data.get "button".toList).bind JVal.as_u64 with
      | some xv, some yv, some bv =>
        let bname : Chars :=
          if bv = 1 then "left".toList
          else if bv = 2 then "right".toList
          else if bv = 3 then "middle".toList
          else "unknown".toList
        ["button=".toList ++ bname, "x=".toList ++ intToChars xv, "y=".toList ++ intToChars yv]
      | _, _, _ => []
    | .MouseScroll =>
      match (e.data.get "x".toList).bind JVal.as_i64,
            (e.data.get "y".toList).bind JVal.as_i64,
            (e.data.get "delta".toList).bind JVal.as_i64 with
      | some xv, some yv, some dv =>
        let dy : Int := if dv > 0 then 1 else -1
        ["dx=0".toList, "dy=".toList ++ intToChars dy,
         "x=".toList ++ intToChars xv, "y=".toList ++ intToChars yv]
      | _, _, _ => []
  joinSemi ([fmt6 e.timestamp, e.event_type.code] ++ dataParts)

/-- Model of `events.rs` `from_mcr_line`, field loop body: parse one `key=value` part
(`char` renamed to `key_name`; `x`/`y`/`dx`/`dy` parsed as `i64`, dropped when
unparsable; `button` names decoded to 1/2/3 and anything else to 0; unknown
keys kept verbatim as strings; parts without `=` ignored). -/
def decodeField (data : Jmap) (part : Chars) : Jmap :=
  match splitOnceAt '=' part with
  | none => data
  | some (k, v) =>
    if k = "char".toList then data.insert "key_name".toList (.str v)
    else if k = "x".toList ∨ k = "y".toList ∨ k = "dx".toList ∨ k = "dy".toList then
      match parseI64 v with
      | some n => data.insert k (.num n)
      | none => data
    else if k = "button".toList then
      let bn : Int :=
        if v = "left".toList then 1
        else if v = "right".toList then 2
        else if v = "middle".toList then 3
        else 0
      data.insert k (.num bn)
    else data.insert k (.str v)

/-- Model of `events.rs` `from_mcr_line`: trim; blank and `#` lines decode to nothing;
split on `;`; fewer than two fields decodes to nothing; field 0 must parse as
an `f64` and field 1 as a short code; remaining fields are folded through
`decodeField`. -/
def from_mcr_line (l : Chars) : Option MacroEvent :=
  let line := trimChars l
  if line.isEmpty then none
  else if line.head? = some '#' then none
  else
    match line.splitOn ';' with
    | p0 :: p1 :: rest =>
      match parseFloat p0, EventType.fromCode p1 with
      | some ts, some et => some ⟨ts, et, rest.foldl decodeField []⟩
      | _, _ => none
    | _ => none

/-- Model of `hooks.rs` `vk_code_to_string`: capture-side key-name table.  Letters map
to their lowercase character, digits to themselves, `0x70..=0x7B` to
`f1`..`f12`, then the named control keys, the punctuation set, and the decimal
`vk_<code>` fallback. -/
def vk_code_to_string (vk : Nat) : Chars :=
  if 0x41 ≤ vk ∧ vk ≤ 0x5A then [(Char.ofNat vk).toLower]
  else if 0x30 ≤ vk ∧ vk ≤ 0x39 then [Char.ofNat vk]
  else if 0x70 ≤ vk ∧ vk ≤ 0x7B then 'f' :: natToChars (vk - 0x6F)
  else if vk = 0x20 then "space".toList
  else if vk = 0x0D then "enter".toList
  else if vk = 0x08 then "backspace".toList
  else if vk = 0x09 then "tab".toList
  else if vk = 0x10 then "shift".toList
  else if vk = 0x11 then "ctrl".toList
  else if vk = 0x12 then "alt".toList
  else if vk = 0x1B then "esc".toList
  else if vk = 0x25 then "left".toList
  else if vk = 0x26 then "up".toList
  else if vk = 0x27 then "right".toList
  else if vk = 0x28 then "down".toList
  else if vk = 0x2E then "delete".toList
  else if vk = 0x2D then "insert".toList
  else if vk = 0x24 then "home".toList
  else if vk = 0x23 then "end".toList
  else if vk = 0x21 then "page_up".toList
  else if vk = 0x22 then "page_down".toList
  else if vk = 0xBA then [';']
  else if vk = 0xBB then ['=']
  else if vk = 0xBC then [',']
  else if vk = 0xBD then ['-']
  else if vk = 0xBE then ['.']
  else if vk = 0xBF then ['/']
  else if vk = 0xC0 then [Char.ofNat 96]
  else if vk = 0xDB then ['[']
  else if vk = 0xDC then ['\\']
  else if vk = 0xDD then [']']
  else if vk = 0xDE then [Char.ofNat 39]
  else "vk_".toList ++ natToChars vk

/-- Model of `player.rs` `key_name_to_vk_code`: playback-side key-name table.  Match
arms are tried in source order: single lowercase letter, single digit,
`f<1..12>`, the named control keys, the punctuation set, and the `vk_<code>`
fallback parsed as a `u16`. -/
def key_name_to_vk_code (key : Chars) : Option Nat :=
  if key.length = 1 ∧ (key.headD ' ').isLower then
    some (key.headD ' ').toUpper.toNat
  else if key.length = 1 ∧ (key.headD ' ').isDigit then
    some (key.headD ' ').toNat
  else if key.headD ' ' = 'f' ∧ key.length ≤ 3 then
    match parseU16 (key.drop 1) with
    | some n => if 1 ≤ n ∧ n ≤ 12 then some (0x70 + n - 1) else none
    | none => none
  else if key = "space".toList then some 0x20
  else if key = "enter".toList then some 0x0D
  else if key = "backspace".toList then some 0x08
  else if key = "tab".toList then some 0x09
  else if key = "shift".toList then some 0x10
  else if key = "ctrl".toList then some 0x11
  else if key = "alt".toList then some 0x12
  else if key = "esc".toList then some 0x1B
  else if key = "left".toList then some 0x25
  else if key = "up".toList then some 0x26
  else if key = "right".toList then some 0x27
  else if key = "down".toList then some 0x28
  else if key = "delete".toList then some 0x2E
  else if key = "insert".toList then some 0x2D
  else if key = "home".toList then some 0x24
  else if key = "end".toList then some 0x23
  else if key = "page_up".toList then some 0x21
  else if key = "page_down".toList then some 0x22
  else if key = [';'] then some 0xBA
  else if key = ['='] then some 0xBB
  else if key = [','] then some 0xBC
  else if key = ['-'] then some 0xBD
  else if key = ['.'] then some 0xBE
  else if key = ['/'] then some 0xBF
  else if key = [Char.ofNat 96] then some 0xC0
  else if key = ['['] then some 0xDB
  else if key = ['\\'] then some 0xDC
  else if key = [']'] then some 0xDD
  else if key = [Char.ofNat 39] then some 0xDE
  else if key.take 3 = "vk_".toList then parseU16 (key.drop 3)
  else none

/-- An OS input-injection call made by the player (`SendInput`/`SetCursorPos`
in `player.rs`). -/
inductive InjectionCommand where
  | keyInput (vk : Nat) (down : Bool)
  | setCursorPos (x y : Int)
  | mouseButton (x y : Int) (button : Int) (down : Bool)
  | mouseWheel (x y : Int) (delta : Int)
deriving DecidableEq, Repr

/-- Wrapping `as u32` cast on a non-negative value. -/
def wrapU32 (n : Int) : Int := n % 4294967296

/-- Wrapping `as i32` cast. -/
def wrapI32 (n : Int) : Int :=
  let m := n % 4294967296
  if m ≥ 2147483648 then m - 4294967296 else m

/-- Model of `player.rs` `send_mouse_click`: always moves the cursor first; the button
event itself is only sent for button codes 1, 2, 3 (the flag `match` returns
early otherwise). -/
def send_mouse_click (x y button : Int) (down : Bool) : List InjectionCommand :=
  .setCursorPos x y ::
    (if button = 1 ∨ button = 2 ∨ button = 3 then [.mouseButton x y button down] else [])

/-- Model of `player.rs` `execute_event`: the injection calls performed for one event.
Each kind requires its attributes to be present with the right numeric type;
otherwise nothing is injected. -/
def execute_event (e : MacroEvent) : List InjectionCommand :=
  match e.event_type with
  | .KeyDown =>
    match (e.data.get "key_name".toList).bind JVal.as_str with
    | some s =>
      match key_name_to_vk_code s with
      | some vk => [.keyInput vk true]
      | none => []
    | none => []
  | .KeyUp =>
    match (e.data.get "key_name".toList).bind JVal.as_str with
    | some s =>
      match key_name_to_vk_code s with
      | some vk => [.keyInput vk false]
      | none => []
    | none => []
  | .MouseMove =>
    match (e.data.get "x".toList).bind JVal.as_i64,
          (e.data.get "y".toList).bind JVal.as_i64 with
    | some xv, some yv => [.setCursorPos (wrapI32 xv) (wrapI32 yv)]
    | _, _ => []
  | .MouseDown =>
    match (e.data.get "x".toList).bind JVal.as_i64,
          (e.data.get "y".toList).bind JVal.as_i64,
          (e.data.get "button".toList).bind JVal.as_u64 with
    | some xv, some yv, some bv => send_mouse_click (wrapI32 xv) (wrapI32 yv) (wrapU32 bv) true
    | _, _, _ => []
  | .MouseUp =>
    match (e.data.get "x".toList).bind JVal.as_i64,
          (e.data.get "y".toList).bind JVal.as_i64,
          (e.data.get "button".toList).bind JVal.as_u64 with
    | some xv, some yv, some bv => send_mouse_click (wrapI32 xv) (wrapI32 yv) (wrapU32 bv) false
    | _, _, _ => []
  | .MouseScroll =>
    match (e.data.get "x".toList).bind JVal.as_i64,
          (e.data.get "y".toList).bind JVal.as_i64,
          (e.data.get "delta".toList).bind JVal.as_i64 with
    | some xv, some yv, some dv =>
      [.setCursorPos (wrapI32 xv) (wrapI32 yv), .mouseWheel (wrapI32 xv) (wrapI32 yv) (wrapI32 dv)]
    | _, _, _ => []

/-- Model of `player.rs` `play_events`: the scheduling loop run on the spawned thread.
It receives a clone of the timeline and the speed by value (player.rs:77-81)
and has no handle to the shared player state, so the injected command
sequence is a pure function of those arguments; the speed and the sleeps only
affect when each command is issued, never which commands are issued. -/
def play_events (events : List MacroEvent) (_speed : ℚ) : List InjectionCommand :=
  events.flatMap execute_event

/-- Model of `player.rs`: the `PlayerState` enumeration. -/
inductive PlayerState where
  | Idle
  | Playing
  | Paused
  | Stopped
deriving DecidableEq, Repr

/-- Model of `player.rs`: the `MacroPlayer` struct.  The wall-clock bookkeeping fields
(`start_time`, `pause_start`, `total_pause_time`) are real-time `Instant`s
read by no claim and are omitted.  `spawned_loops` counts the `thread::spawn`
calls made by `start()` (player.rs:80); a spawned `play_events` thread has no
cancellation path, so each spawn is a scheduling loop that runs to
completion. -/
structure MacroPlayer where
  events : List MacroEvent
  state : PlayerState
  current_position : Nat
  playback_speed : ℚ
  spawned_loops : Nat
deriving DecidableEq, Repr

/-- Model of `MacroPlayer::new`. -/
def MacroPlayer.new : MacroPlayer :=
  { events := [], state := .Idle, current_position := 0, playback_speed := 1, spawned_loops := 0 }

/-- Comparison used by `load_from_file`'s sort: `a.timestamp.partial_cmp(&b.timestamp)`. -/
def tsLe (a b : MacroEvent) : Bool := a.timestamp.fle b.timestamp

/-- Outcome of a call that can abort the process: a normal result, or a
panic that unwinds instead of returning. -/
inductive PanicOr (α : Type) where
  | panicked
  | ok (a : α)
deriving DecidableEq, Repr

/-- Stable insertion of `e` into a sorted list: `e` is placed before the
first element it is `tsLe`-below-or-equal-to, hence before any element with
an equal timestamp (the inserted element always comes earlier in the original
list, see `sortStable`). -/
def insertByTs (e : MacroEvent) : List MacroEvent → List MacroEvent
  | [] => [e]
  | x :: xs => if tsLe e x then e :: x :: xs else x :: insertByTs e xs

/-- Stable insertion sort by timestamp.  A stable sort is uniquely determined
by the comparison, so this models Rust's (stable) `slice::sort_by` exactly. -/
def sortStable : List MacroEvent → List MacroEvent
  | [] => []
  | x :: xs => insertByTs x (sortStable xs)

/-- Model of `player.rs:55` `events.sort_by(|a, b| a.timestamp.partial_cmp(&b.timestamp).unwrap())`.
`partial_cmp` on `f64` returns `None` exactly when a NaN is involved, and the
`unwrap` then panics.  Any comparison sort compares every element at least
once when the list has two or more elements, so the call panics exactly when
a NaN timestamp is present in a list of length ≥ 2; otherwise it is a stable
sort by timestamp. -/
def sort_by_timestamp (evs : List MacroEvent) : PanicOr (List MacroEvent) :=
  if 2 ≤ evs.length ∧ evs.any (fun e => e.timestamp.isNan) then .panicked
  else .ok (sortStable evs)

/-- Strip one trailing `'\r'`, as Rust `str::lines` does per line. -/
def stripCr (l : Chars) : Chars :=
  if l.getLast? = some '\r' then l.dropLast else l

/-- Model of `content.lines()` followed by the decode loop of `load_from_file`
(player.rs:48-52): split on `'\n'`, strip a trailing `'\r'` per line, decode
each line, silently skipping undecodable ones.  (Rust's `lines()` also drops
a final empty segment, which `from_mcr_line` maps to `none` anyway.) -/
def decode_lines (content : Chars) : List MacroEvent :=
  ((content.splitOn '\n').map stripCr).filterMap from_mcr_line

/-- Model of `player.rs` `load_from_file`, given the file's content (the `fs` read is
outside the model; an unreadable file surfaces the I/O error before this
code runs).  `PanicOr.panicked` models the panic inside the sort. -/
def MacroPlayer.load_from_file (p : MacroPlayer) (content : Chars) :
    PanicOr (MacroPlayer × Nat) :=
  let decoded := decode_lines content
  match sort_by_timestamp decoded with
  | .panicked => .panicked
  | .ok sorted =>
    .ok ({ p with events := sorted, current_position := 0, state := .Idle }, sorted.length)

/-- Model of `MacroPlayer::set_speed`: clamp to `[0.1, 10.0]`. -/
def MacroPlayer.set_speed (p : MacroPlayer) (speed : ℚ) : MacroPlayer :=
  { p with playback_speed := min (max speed (1 / 10)) 10 }

/-- Model of `MacroPlayer::start` (player.rs:68-86): when the timeline is non-empty,
set state to Playing, reset the cursor and spawn a playback thread — with no
check of the current state and no cancellation of any loop already running. -/
def MacroPlayer.start (p : MacroPlayer) : MacroPlayer :=
  if p.events.isEmpty then p
  else { p with state := .Playing, current_position := 0, spawned_loops := p.spawned_loops + 1 }

/-- Model of `MacroPlayer::pause`. -/
def MacroPlayer.pause (p : MacroPlayer) : MacroPlayer :=
  if p.state = .Playing then { p with state := .Paused } else p

/-- Model of `MacroPlayer::resume`. -/
def MacroPlayer.resume (p : MacroPlayer) : MacroPlayer :=
  if p.state = .Paused then { p with state := .Playing } else p

/-- Model of `MacroPlayer::stop` (player.rs:106-112): sets the state to `Stopped` (not
`Idle`) and updates the omitted pause bookkeeping; it signals nothing that
`play_events` reads. -/
def MacroPlayer.stop (p : MacroPlayer) : MacroPlayer :=
  { p with state := .Stopped }

/-- Model of `MacroPlayer::get_current_position`. -/
def MacroPlayer.get_current_position (p : MacroPlayer) : Nat :=
  p.current_position

/-- Model of `MacroPlayer::get_state`. -/
def MacroPlayer.get_state (p : MacroPlayer) : PlayerState :=
  p.state

/-! ## Lemmas: decimal digit strings -/

theorem digitChar_isDigit {d : Nat} (h : d < 10) : (digitChar d).isDigit = true := by
  interval_cases d <;> decide

theorem digitChar_toNat {d : Nat} (h : d < 10) : (digitChar d).toNat = 48 + d := by
  interval_cases d <;> decide

theorem natToCharsAux_eq : ∀ (fuel n : Nat), n ≤ fuel →
    natToCharsAux fuel n = (Nat.digits 10 n).reverse.map digitChar
  | 0, n, h => by
    interval_cases n
    simp [natToCharsAux]
  | fuel + 1, n, h => by
    rcases Nat.eq_zero_or_pos n with rfl | hn
    · simp [natToCharsAux]
    · have hd : Nat.digits 10 n = n % 10 :: Nat.digits 10 (n / 10) :=
        Nat.digits_def' (by norm_num) hn
      have hle : n / 10 ≤ fuel := by
        have := Nat.div_lt_self hn (by norm_num : 1 < 10)
        omega
      rw [natToCharsAux, if_neg (by omega), natToCharsAux_eq fuel (n / 10) hle, hd]
      simp

theorem natToChars_eq (n : Nat) :
    natToChars n = if n = 0 then ['0'] else (Nat.digits 10 n).reverse.map digitChar := by
  unfold natToChars
  rcases Nat.eq_zero_or_pos n with rfl | hn
  · simp
  · rw [if_neg (by omega), if_neg (by omega), natToCharsAux_eq n n le_rfl]

theorem natToChars_ne_nil (n : Nat) : natToChars n ≠ [] := by
  rw [natToChars_eq]
  split
  · simp
  · next h =>
    have : Nat.digits 10 n ≠ [] := Nat.digits_ne_nil_iff_ne_zero.mpr h
    simpa using this

theorem natToChars_mem (n : Nat) : ∀ c ∈ natToChars n, ∃ d, d < 10 ∧ c = digitChar d := by
  rw [natToChars_eq]
  split
  · intro c hc
    simp only [List.mem_singleton] at hc
    exact ⟨0, by norm_num, by simp [hc]; decide⟩
  · intro c hc
    simp only [List.mem_map, List.mem_reverse] at hc
    obtain ⟨d, hd, rfl⟩ := hc
    exact ⟨d, Nat.digits_lt_base (by norm_num) hd, rfl⟩

theorem natToChars_allDigits (n : Nat) : ∀ c ∈ natToChars n, c.isDigit = true := by
  intro c hc
  obtain ⟨d, hd, rfl⟩ := natToChars_mem n c hc
  exact digitChar_isDigit hd

theorem charsToNat_append_digit (l : Chars) (c : Char) :
    charsToNat (l ++ [c]) = 10 * charsToNat l + charVal c := by
  simp [charsToNat, List.foldl_append]

theorem charsToNat_digits (n : Nat) :
    charsToNat ((Nat.digits 10 n).reverse.map digitChar) = n := by
  induction n using Nat.strong_induction_on with
  | _ n ih =>
    rcases Nat.eq_zero_or_pos n with rfl | hn
    · simp [charsToNat]
    · rw [Nat.digits_def' (by norm_num : (1:ℕ) < 10) hn]
      simp only [List.reverse_cons, List.map_append, List.map_cons, List.map_nil]
      rw [charsToNat_append_digit,
        ih (n / 10) (Nat.div_lt_self hn (by norm_num))]
      have h10 : n % 10 < 10 := Nat.mod_lt _ (by norm_num)
      have : charVal (digitChar (n % 10)) = n % 10 := by
        simp [charVal, digitChar_toNat h10]
      rw [this]
      omega

theorem charsToNat_natToChars (n : Nat) : charsToNat (natToChars n) = n := by
  rw [natToChars_eq]
  split
  · simp [charsToNat, charVal]
    subst_eqs
    decide
  · exact charsToNat_digits n

theorem charsToNat_replicate_zero (k : Nat) (l : Chars) :
    charsToNat (List.replicate k '0' ++ l) = charsToNat l := by
  induction k with
  | zero => simp
  | succ k ih =>
    simp only [List.replicate_succ, List.cons_append]
    show charsToNat (List.replicate k '0' ++ l) = charsToNat l
    exact ih

theorem allDigits_natToChars (n : Nat) : allDigits (natToChars n) = true := by
  simp only [allDigits, List.all_eq_true]
  exact natToChars_allDigits n

theorem parseNatDigits_natToChars (n : Nat) : parseNatDigits (natToChars n) = some n := by
  unfold parseNatDigits
  rw [allDigits_natToChars]
  simp [natToChars_ne_nil n, List.isEmpty_iff, charsToNat_natToChars]

theorem natToChars_length_le {n bound : Nat} (hb : 1 ≤ bound) (h : n < 10 ^ bound) :
    (natToChars n).length ≤ bound := by
  rw [natToChars_eq]
  split
  · simpa using hb
  · next hn =>
    simp only [List.length_map, List.length_reverse]
    by_contra hlen
    have h1 : 10 ^ (Nat.digits 10 n).length ≤ 10 * n :=
      Nat.base_pow_length_digits_le 10 n (by norm_num) hn
    have h2 : 10 ^ (bound + 1) ≤ 10 ^ (Nat.digits 10 n).length :=
      Nat.pow_le_pow_right (by norm_num) (by omega)
    have h3 : 10 ^ (bound + 1) = 10 * 10 ^ bound := by ring
    omega

/-- The properties of a decimal digit character needed by the codec proofs:
it is none of the delimiter characters, it is not whitespace, and it is fixed
by lowercasing (so it cannot start `inf`/`infinity`/`nan`). -/
theorem digitChar_props {d : Nat} (h : d < 10) :
    digitChar d ≠ '+' ∧ digitChar d ≠ '-' ∧ digitChar d ≠ '.' ∧ digitChar d ≠ ';' ∧
      digitChar d ≠ '#' ∧ digitChar d ≠ 'e' ∧ digitChar d ≠ 'E' ∧
      digitChar d ≠ 'i' ∧ digitChar d ≠ 'n' ∧
      isWs (digitChar d) = false ∧ (digitChar d).toLower = digitChar d := by
  interval_cases d <;> decide

/-! ## Lemmas: splitting, trimming and integer parsing -/

theorem splitOnceBy_eq_none {p : Char → Bool} :
    ∀ {l : Chars}, (∀ c ∈ l, p c = false) → splitOnceBy p l = none
  | [], _ => rfl
  | c :: rest, h => by
    rw [splitOnceBy, h c (by simp), splitOnceBy_eq_none (fun c hc => h c (by simp [hc]))]
    simp

theorem splitOnceBy_append {p : Char → Bool} (sep : Char) (hsep : p sep = true) :
    ∀ (a b : Chars), (∀ c ∈ a, p c = false) →
      splitOnceBy p (a ++ sep :: b) = some (a, b)
  | [], b, _ => by simp [splitOnceBy, hsep]
  | c :: a, b, h => by
    rw [List.cons_append, splitOnceBy, h c (by simp),
      splitOnceBy_append sep hsep a b (fun c hc => h c (by simp [hc]))]
    simp

theorem parseNatDigits_eq_none {l : Chars} (h : allDigits l = false) :
    parseNatDigits l = none := by
  unfold parseNatDigits
  rw [h]
  simp

theorem hasNonDigit_allDigits {l : Chars} {c : Char} (hc : c ∈ l) (h : c.isDigit = false) :
    allDigits l = false := by
  unfold allDigits
  rw [List.all_eq_false]
  exact ⟨c, hc, by simp [h]⟩

theorem head_natToChars (n : Nat) :
    ∃ d rest, d < 10 ∧ natToChars n = digitChar d :: rest := by
  obtain ⟨c, rest, hcons⟩ : ∃ c rest, natToChars n = c :: rest := by
    cases hl : natToChars n with
    | nil => exact absurd hl (natToChars_ne_nil n)
    | cons c rest => exact ⟨c, rest, rfl⟩
  obtain ⟨d, hd, rfl⟩ := natToChars_mem n c (hcons ▸ by simp)
  exact ⟨d, rest, hd, hcons⟩

theorem stripPlus_digit {d : Nat} (hd : d < 10) (rest : Chars) :
    stripPlus (digitChar d :: rest) = digitChar d :: rest := by
  rw [stripPlus, if_neg (digitChar_props hd).1]

theorem splitSign_digit {d : Nat} (hd : d < 10) (rest : Chars) :
    splitSign (digitChar d :: rest) = (false, digitChar d :: rest) := by
  rw [splitSign, if_neg (digitChar_props hd).2.1, if_neg (digitChar_props hd).1]

theorem stripPlus_natToChars (n : Nat) : stripPlus (natToChars n) = natToChars n := by
  obtain ⟨d, rest, hd, hcons⟩ := head_natToChars n
  rw [hcons, stripPlus_digit hd]

theorem splitSign_natToChars (n : Nat) : splitSign (natToChars n) = (false, natToChars n) := by
  obtain ⟨d, rest, hd, hcons⟩ := head_natToChars n
  rw [hcons, splitSign_digit hd]

theorem parseU16_natToChars {n : Nat} (h : n < 65536) : parseU16 (natToChars n) = some n := by
  unfold parseU16
  rw [stripPlus_natToChars, parseNatDigits_natToChars]
  simp [h]

theorem parseI64_intToChars {x : Int} (hlo : -(2 ^ 63) ≤ x) (hhi : x ≤ 2 ^ 63 - 1) :
    parseI64 (intToChars x) = some x := by
  unfold parseI64 intToChars
  by_cases hx : x < 0
  · rw [if_pos hx]
    have hxt : ((-x).toNat : Int) = -x := Int.toNat_of_nonneg (by omega)
    rw [show splitSign ('-' :: natToChars (-x).toNat) =
        (true, natToChars (-x).toNat) by rw [splitSign, if_pos rfl]]
    dsimp only
    rw [parseNatDigits_natToChars]
    dsimp only [Option.bind]
    rw [hxt, if_pos (by omega : -x ≤ (2:Int) ^ 63)]
    simp
  · rw [if_neg hx]
    have hxt : (x.toNat : Int) = x := Int.toNat_of_nonneg (by omega)
    rw [splitSign_natToChars]
    dsimp only
    rw [parseNatDigits_natToChars]
    dsimp only [Option.bind]
    rw [hxt, if_pos (by omega : x ≤ (2:Int) ^ 63 - 1)]
    simp

theorem trimChars_eq_self {l : Chars}
    (h1 : ∀ c, l.head? = some c → isWs c = false)
    (h2 : ∀ c, l.getLast? = some c → isWs c = false) :
    trimChars l = l := by
  unfold trimChars
  have hdrop : l.dropWhile isWs = l := by
    cases l with
    | nil => rfl
    | cons c rest =>
      rw [List.dropWhile_cons, h1 c rfl]
      simp
  rw [hdrop]
  have hrev : l.reverse.dropWhile isWs = l.reverse := by
    cases hr : l.reverse with
    | nil => rfl
    | cons c rest =>
      rw [List.dropWhile_cons, h2 c ?_]
      · simp
      · rw [← List.head?_reverse, hr]
        rfl
  rw [hrev, List.reverse_reverse]

/-! ## Lemmas: timestamp formatting and parsing round trip -/

theorem mkRat_micro_nonneg (m : Nat) : 0 ≤ mkRat (m : Int) 1000000 := by
  rw [Rat.mkRat_eq_div]
  positivity

theorem num_den_mkRat_micro (m : Nat) :
    (mkRat (m : Int) 1000000).num * 1000000 = (m : Int) * (mkRat (m : Int) 1000000).den := by
  set q := mkRat (m : Int) 1000000 with hq
  have hden : ((q.den : ℚ)) ≠ 0 := by
    exact_mod_cast q.den_nz
  have hqd : ((q.num : ℚ)) / ((q.den : ℚ)) = q := Rat.num_div_den q
  have hval : (q : ℚ) = (m : ℚ) / 1000000 := by
    rw [hq, Rat.mkRat_eq_div]
    norm_num
  have hqd2 : ((q.num : ℚ)) / ((q.den : ℚ)) = (m : ℚ) / 1000000 := hqd.trans hval
  have : ((q.num : ℚ)) * 1000000 = (m : ℚ) * ((q.den : ℚ)) := by
    rw [div_eq_div_iff hden (by norm_num : (1000000 : ℚ) ≠ 0)] at hqd2
    exact hqd2
  exact_mod_cast this

theorem microRound_mkRat_micro (m : Nat) : microRound (mkRat (m : Int) 1000000) = m := by
  unfold microRound
  set q := mkRat (m : Int) 1000000 with hq
  have hnum : 0 ≤ q.num := Rat.num_nonneg.mpr (mkRat_micro_nonneg m)
  have habs : ((q.num.natAbs : Int)) = q.num := Int.natAbs_of_nonneg hnum
  have hden : (0 : Int) < (q.den : Int) := by exact_mod_cast q.den_pos
  have hkey : q.num * 1000000 = (m : Int) * q.den := num_den_mkRat_micro m
  have hrw : 2 * (q.num.natAbs : Int) * 1000000 + (q.den : Int) =
      (q.den : Int) + (m : Int) * (2 * (q.den : Int)) := by
    rw [show 2 * (q.num.natAbs : Int) * 1000000 = 2 * ((q.num.natAbs : Int) * 1000000) by ring,
      habs, hkey]
    ring
  rw [hrw, Int.fdiv_eq_ediv _ (by omega), Int.add_mul_ediv_right _ _ (by omega : 2 * (q.den : Int) ≠ 0),
    Int.ediv_eq_zero_of_lt (by omega) (by omega)]
  simp

theorem fmt6_canonical (m : Nat) : fmt6 (.finite (mkRat (m : Int) 1000000)) = fmt6Nat m := by
  show (if mkRat (m : Int) 1000000 < 0 then
      '-' :: fmt6Nat (microRound (mkRat (m : Int) 1000000)).toNat
    else fmt6Nat (microRound (mkRat (m : Int) 1000000)).toNat) = fmt6Nat m
  rw [if_neg (not_lt.mpr (mkRat_micro_nonneg m)), microRound_mkRat_micro]
  simp

/-- The fractional part of `fmt6Nat`: six digit characters of value `m % 10⁶`. -/
theorem fmt6Nat_eq (m : Nat) :
    fmt6Nat m = natToChars (m / 1000000) ++ '.' ::
      (List.replicate (6 - (natToChars (m % 1000000)).length) '0' ++ natToChars (m % 1000000)) := rfl

theorem frac_chars_props (m : Nat) :
    (∀ c ∈ List.replicate (6 - (natToChars (m % 1000000)).length) '0' ++
        natToChars (m % 1000000), ∃ d, d < 10 ∧ c = digitChar d) ∧
      charsToNat (List.replicate (6 - (natToChars (m % 1000000)).length) '0' ++
        natToChars (m % 1000000)) = m % 1000000 ∧
      (List.replicate (6 - (natToChars (m % 1000000)).length) '0' ++
        natToChars (m % 1000000)).length = 6 := by
  refine ⟨?_, charsToNat_replicate_zero _ _ |>.trans (charsToNat_natToChars _), ?_⟩
  · intro c hc
    rcases List.mem_append.mp hc with hc | hc
    · exact ⟨0, by norm_num, by rw [List.eq_of_mem_replicate hc]; decide⟩
    · exact natToChars_mem _ c hc
  · have hlt : m % 1000000 < 10 ^ 6 := by
      have := Nat.mod_lt m (by norm_num : 0 < 1000000)
      norm_num
      omega
    have hle : (natToChars (m % 1000000)).length ≤ 6 :=
      natToChars_length_le (by norm_num) hlt
    simp [List.length_append, List.length_replicate]
    omega

theorem allDigits_of_mem {l : Chars} (h : ∀ c ∈ l, ∃ d, d < 10 ∧ c = digitChar d) :
    allDigits l = true := by
  simp only [allDigits, List.all_eq_true]
  intro c hc
  obtain ⟨d, hd, rfl⟩ := h c hc
  exact digitChar_isDigit hd

/-- Decoding the timestamp field written by `fmt6` recovers the exact value,
for canonical timestamps (non-negative exact multiples of 10⁻⁶). -/
theorem parseFloat_fmt6Nat (m : Nat) :
    parseFloat (fmt6Nat m) = some (.finite (mkRat (m : Int) 1000000)) := by
  obtain ⟨d, ipr, hd, hip⟩ := head_natToChars (m / 1000000)
  obtain ⟨hne_p, hne_m, hne_dot, hne_semi, hne_hash, hne_e, hne_E, hne_i, hne_n, hws, hlow⟩ :=
    digitChar_props hd
  obtain ⟨hfpmem, hfpval, hfplen⟩ := frac_chars_props m
  set fp : Chars := List.replicate (6 - (natToChars (m % 1000000)).length) '0' ++
    natToChars (m % 1000000) with hfp
  have hline : fmt6Nat m = digitChar d :: (ipr ++ '.' :: fp) := by
    rw [fmt6Nat_eq, hip, ← hfp]
    simp
  have hmem : ∀ c ∈ digitChar d :: (ipr ++ '.' :: fp),
      c = '.' ∨ ∃ e, e < 10 ∧ c = digitChar e := by
    intro c hc
    rcases List.mem_cons.mp hc with rfl | hc
    · exact Or.inr ⟨d, hd, rfl⟩
    · rcases List.mem_append.mp hc with hc | hc
      · exact Or.inr (natToChars_mem (m / 1000000) c (hip ▸ List.mem_cons_of_mem _ hc))
      · rcases List.mem_cons.mp hc with rfl | hc
        · exact Or.inl rfl
        · exact Or.inr (hfpmem c hc)
  unfold parseFloat
  rw [hline, splitSign_digit hd]
  dsimp only
  rw [if_neg ?hinf]
  case hinf =>
    simp only [lowerChars, List.map_cons, hlow, Bool.or_eq_true, decide_eq_true_eq]
    rintro (h | h) <;> exact hne_i (by injection h)
  rw [if_neg ?hnan]
  case hnan =>
    simp only [lowerChars, List.map_cons, hlow, decide_eq_true_eq]
    intro h
    exact hne_n (by injection h)
  have hnum : parseNumber (digitChar d :: (ipr ++ '.' :: fp)) =
      some (mkRat (m : Int) 1000000) := by
    unfold parseNumber
    rw [splitOnceBy_eq_none ?hnoexp]
    case hnoexp =>
      intro c hc
      rcases hmem c hc with rfl | ⟨e, he, rfl⟩
      · decide
      · have h1 := (digitChar_props he).2.2.2.2.2.1
        have h2 := (digitChar_props he).2.2.2.2.2.2.1
        simp [h1, h2]
    unfold parseMantissa splitOnceAt
    have hsplit : splitOnceBy (fun c => decide (c = '.')) (digitChar d :: (ipr ++ '.' :: fp)) =
        some (digitChar d :: ipr, fp) := by
      have := splitOnceBy_append (p := fun c => decide (c = '.')) '.' (by simp)
        (digitChar d :: ipr) fp ?hnodot
      case hnodot =>
        intro c hc
        have := natToChars_mem (m / 1000000) c (hip ▸ hc)
        obtain ⟨e, he, rfl⟩ := this
        simp [(digitChar_props he).2.2.1]
      simpa using this
    rw [hsplit]
    dsimp only
    rw [if_neg (by simp), if_pos ?hdig]
    case hdig =>
      rw [← hip, allDigits_natToChars, allDigits_of_mem hfpmem]
      rfl
    rw [← hip, hfplen]
    have hipval : charsToNat (natToChars (m / 1000000)) = m / 1000000 :=
      charsToNat_natToChars _
    rw [hipval, hfpval]
    have harg : ((m / 1000000 : ℕ) : ℤ) * 10 ^ 6 + ((m % 1000000 : ℕ) : ℤ) = (m : ℤ) := by
      push_cast
      omega
    rw [harg, show (10 : ℕ) ^ 6 = 1000000 by norm_num]
  rw [hnum]
  dsimp only
  simp

/-! ## Lemmas: line assembly and disassembly -/

theorem fromCode_code (et : EventType) : EventType.fromCode et.code = some et := by
  cases et <;> rfl

theorem code_props (et : EventType) :
    et.code ≠ [] ∧ (∀ c ∈ et.code, c ≠ ';' ∧ isWs c = false) := by
  cases et <;> decide

/-- One step of Rust `split(';')` on a line built as `a ++ ';' :: rest`. -/
theorem splitOn_semi_step {a : Chars} (h : ∀ c ∈ a, c ≠ ';') (rest : Chars) :
    (a ++ ';' :: rest).splitOn ';' = a :: rest.splitOn ';' := by
  apply List.splitOnP_first
  · intro c hc
    simp [h c hc]
  · simp

theorem splitOn_semi_single {a : Chars} (h : ∀ c ∈ a, c ≠ ';') :
    a.splitOn ';' = [a] := by
  apply List.splitOnP_eq_single
  intro c hc
  simp [h c hc]

theorem fmt6Nat_no_semi (m : Nat) : ∀ c ∈ fmt6Nat m, c ≠ ';' := by
  intro c hc
  rw [fmt6Nat_eq] at hc
  rcases List.mem_append.mp hc with hc | hc
  · obtain ⟨d, hd, rfl⟩ := natToChars_mem _ c hc
    exact (digitChar_props hd).2.2.2.1
  · rcases List.mem_cons.mp hc with rfl | hc
    · decide
    · obtain ⟨d, hd, rfl⟩ := (frac_chars_props m).1 c hc
      exact (digitChar_props hd).2.2.2.1

theorem intToChars_no_semi (x : Int) : ∀ c ∈ intToChars x, c ≠ ';' := by
  intro c hc
  unfold intToChars at hc
  have hdig : ∀ c', c' ∈ natToChars x.toNat ∨ c' ∈ natToChars (-x).toNat → c' ≠ ';' := by
    intro c' hc'
    rcases hc' with hc' | hc' <;>
      · obtain ⟨d, hd, rfl⟩ := natToChars_mem _ c' hc'
        exact (digitChar_props hd).2.2.2.1
  split at hc
  · rcases List.mem_cons.mp hc with rfl | hc
    · decide
    · exact hdig c (Or.inr hc)
  · exact hdig c (Or.inl hc)

theorem natToChars_last_not_ws (n : Nat) :
    ∀ c, (natToChars n).getLast? = some c → isWs c = false := by
  intro c hc
  have hmem : c ∈ natToChars n := List.mem_of_mem_getLast? (by rw [hc]; rfl)
  obtain ⟨d, hd, rfl⟩ := natToChars_mem n c hmem
  exact (digitChar_props hd).2.2.2.2.2.2.2.2.2.1

theorem intToChars_last_not_ws (x : Int) :
    ∀ c, (intToChars x).getLast? = some c → isWs c = false := by
  intro c hc
  have hlast : ∃ n : Nat, (intToChars x).getLast? = (natToChars n).getLast? := by
    unfold intToChars
    split
    · refine ⟨(-x).toNat, ?_⟩
      rw [List.getLast?_cons, List.getLast?_eq_getLast _ (natToChars_ne_nil _)]
      simp
    · exact ⟨x.toNat, rfl⟩
  obtain ⟨n, hn⟩ := hlast
  rw [hn] at hc
  exact natToChars_last_not_ws n c hc

theorem joinSemi_singleton (p : Chars) : joinSemi [p] = p := rfl

theorem joinSemi_cons_cons (p q : Chars) (ps : List Chars) :
    joinSemi (p :: q :: ps) = p ++ ';' :: joinSemi (q :: ps) := rfl

theorem joinSemi_ne_nil {p : Chars} (ps : List Chars) (hp : p ≠ []) :
    joinSemi (p :: ps) ≠ [] := by
  cases ps with
  | nil => simpa [joinSemi_singleton] using hp
  | cons q ps => simp [joinSemi_cons_cons]

theorem splitOn_joinSemi :
    ∀ (parts : List Chars), (∀ p ∈ parts, ∀ c ∈ p, c ≠ ';') → parts ≠ [] →
      (joinSemi parts).splitOn ';' = parts
  | [], _, hne => absurd rfl hne
  | [p], h, _ => by
    rw [joinSemi_singleton, splitOn_semi_single (h p (by simp))]
  | p :: q :: ps, h, _ => by
    rw [joinSemi_cons_cons, splitOn_semi_step (h p (by simp)),
      splitOn_joinSemi (q :: ps) (fun r hr => h r (by simp [hr])) (by simp)]

theorem joinSemi_getLast? :
    ∀ (ps : List Chars), (∀ p ∈ ps, p ≠ []) → ps ≠ [] →
      ∃ p, p ∈ ps ∧ (joinSemi ps).getLast? = p.getLast?
  | [], _, hne => absurd rfl hne
  | [p], _, _ => ⟨p, by simp, by rw [joinSemi_singleton]⟩
  | p :: q :: ps, h, _ => by
    obtain ⟨r, hr, hlast⟩ :=
      joinSemi_getLast? (q :: ps) (fun x hx => h x (by simp [hx])) (by simp)
    have hjne : joinSemi (q :: ps) ≠ [] := joinSemi_ne_nil ps (h q (by simp))
    refine ⟨r, by simp [List.mem_cons.mp hr], ?_⟩
    have hmid : (';' :: joinSemi (q :: ps)).getLast? = (joinSemi (q :: ps)).getLast? := by
      rw [List.getLast?_cons, List.getLast?_eq_getLast _ hjne]
      simp
    rw [joinSemi_cons_cons, List.getLast?_append, hmid, hlast]
    have hrne : r ≠ [] := h r (by simp [List.mem_cons.mp hr])
    rw [List.getLast?_eq_getLast r hrne]
    simp

theorem head?_joinSemi_fmt6Nat (m : Nat) (ps : List Chars) :
    ∃ d, d < 10 ∧ (joinSemi (fmt6Nat m :: ps)).head? = some (digitChar d) := by
  obtain ⟨d, ipr, hd, hip⟩ := head_natToChars (m / 1000000)
  have ht : fmt6Nat m = digitChar d :: (ipr ++ '.' ::
      (List.replicate (6 - (natToChars (m % 1000000)).length) '0' ++
        natToChars (m % 1000000))) := by
    rw [fmt6Nat_eq, hip]
    simp
  cases ps with
  | nil => exact ⟨d, hd, by rw [joinSemi_singleton, ht]; rfl⟩
  | cons q ps => exact ⟨d, hd, by rw [joinSemi_cons_cons, ht]; rfl⟩

/-- Decoding a line assembled by the encoder: if no part contains `;`, every
part is non-empty, and the last part does not end in whitespace, then
`from_mcr_line` recovers the canonical timestamp, the event type, and the
`decodeField`-fold of the data parts. -/
theorem from_mcr_line_joinSemi (m : Nat) (et : EventType) (restParts : List Chars)
    (hsemi : ∀ p ∈ restParts, ∀ c ∈ p, c ≠ ';')
    (hnonempty : ∀ p ∈ restParts, p ≠ [])
    (hws : ∀ p ∈ restParts, ∀ c, p.getLast? = some c → isWs c = false) :
    from_mcr_line (joinSemi (fmt6Nat m :: et.code :: restParts)) =
      some ⟨.finite (mkRat (m : Int) 1000000), et, restParts.foldl decodeField []⟩ := by
  obtain ⟨d, hd, hhead⟩ := head?_joinSemi_fmt6Nat m (et.code :: restParts)
  have hall_ne : ∀ p ∈ fmt6Nat m :: et.code :: restParts, p ≠ [] := by
    intro p hp
    rcases List.mem_cons.mp hp with rfl | hp
    · intro hcon
      rw [fmt6Nat_eq] at hcon
      simp at hcon
    · rcases List.mem_cons.mp hp with rfl | hp
      · exact (code_props et).1
      · exact hnonempty p hp
  have hall_ws : ∀ p ∈ fmt6Nat m :: et.code :: restParts, ∀ c, p.getLast? = some c →
      isWs c = false := by
    intro p hp c hc
    rcases List.mem_cons.mp hp with rfl | hp
    · have hfne : (List.replicate (6 - (natToChars (m % 1000000)).length) '0' ++
          natToChars (m % 1000000)) ≠ [] := by
        intro hcon
        have hfl := (frac_chars_props m).2.2
        rw [hcon] at hfl
        simp at hfl
      have hmid : ('.' :: (List.replicate (6 - (natToChars (m % 1000000)).length) '0' ++
          natToChars (m % 1000000))).getLast? = (List.replicate (6 -
          (natToChars (m % 1000000)).length) '0' ++ natToChars (m % 1000000)).getLast? := by
        rw [List.getLast?_cons, List.getLast?_eq_getLast _ hfne]
        simp
      rw [fmt6Nat_eq, List.getLast?_append, hmid,
        List.getLast?_eq_getLast _ hfne] at hc
      simp only [Option.or_some, Option.some.injEq] at hc
      obtain ⟨e, he, hce⟩ := (frac_chars_props m).1 _ (List.getLast_mem hfne)
      rw [← hc, hce]
      exact (digitChar_props he).2.2.2.2.2.2.2.2.2.1
    · rcases List.mem_cons.mp hp with rfl | hp
      · have hcm : c ∈ et.code := List.mem_of_mem_getLast? (by rw [hc]; rfl)
        have hcp := (code_props et).2 c hcm
        exact hcp.2
      · exact hws p hp c hc
  have hall_semi : ∀ p ∈ fmt6Nat m :: et.code :: restParts, ∀ c ∈ p, c ≠ ';' := by
    intro p hp
    rcases List.mem_cons.mp hp with rfl | hp
    · exact fmt6Nat_no_semi m
    · rcases List.mem_cons.mp hp with rfl | hp
      · exact fun c hc => ((code_props et).2 c hc).1
      · exact hsemi p hp
  obtain ⟨plast, hplast_mem, hplast⟩ :=
    joinSemi_getLast? (fmt6Nat m :: et.code :: restParts) hall_ne (by simp)
  have htrim : trimChars (joinSemi (fmt6Nat m :: et.code :: restParts)) =
      joinSemi (fmt6Nat m :: et.code :: restParts) := by
    apply trimChars_eq_self
    · intro c hc
      rw [hhead] at hc
      have hcd : c = digitChar d := by injection hc with h; exact h.symm
      rw [hcd]
      exact (digitChar_props hd).2.2.2.2.2.2.2.2.2.1
    · intro c hc
      rw [hplast] at hc
      exact hall_ws plast hplast_mem c hc
  unfold from_mcr_line
  rw [htrim]
  rw [if_neg (by
    intro hcon
    rw [List.isEmpty_iff] at hcon
    rw [hcon] at hhead
    simp at hhead)]
  rw [if_neg (by
    rw [hhead]
    intro hcon
    have : '#' = digitChar d := by injection hcon with h; exact h.symm
    exact (digitChar_props hd).2.2.2.2.1 this.symm)]
  rw [show (joinSemi (fmt6Nat m :: et.code :: restParts)).splitOn ';' =
      fmt6Nat m :: et.code :: restParts from
    splitOn_joinSemi _ hall_semi (by simp)]
  dsimp only
  rw [parseFloat_fmt6Nat, fromCode_code]

/-! ## Lemmas: field decoding -/

theorem as_i64_num {n : Int} (h1 : -(2 ^ 63) ≤ n) (h2 : n ≤ 2 ^ 63 - 1) :
    JVal.as_i64 (.num n) = some n := by
  show (if -(2 ^ 63) ≤ n ∧ n ≤ 2 ^ 63 - 1 then some n else none) = some n
  rw [if_pos ⟨h1, h2⟩]

theorem as_u64_num {n : Int} (h1 : 0 ≤ n) (h2 : n ≤ 2 ^ 64 - 1) :
    JVal.as_u64 (.num n) = some n := by
  show (if 0 ≤ n ∧ n ≤ 2 ^ 64 - 1 then some n else none) = some n
  rw [if_pos ⟨h1, h2⟩]

theorem decodeField_x (data : Jmap) (v : Chars) :
    decodeField data ("x=".toList ++ v) =
      match parseI64 v with
      | some n => data.insert "x".toList (.num n)
      | none => data := rfl

theorem decodeField_y (data : Jmap) (v : Chars) :
    decodeField data ("y=".toList ++ v) =
      match parseI64 v with
      | some n => data.insert "y".toList (.num n)
      | none => data := rfl

/-- The data fold for a `char=<s>` part. -/
theorem foldl_decode_char (s : Chars) :
    [("char=".toList ++ s)].foldl decodeField [] = [("key_name".toList, JVal.str s)] := rfl

/-- The data fold for `x=…;y=…` parts. -/
theorem foldl_decode_xy {xv yv : Int}
    (hx1 : -(2 ^ 63) ≤ xv) (hx2 : xv ≤ 2 ^ 63 - 1)
    (hy1 : -(2 ^ 63) ≤ yv) (hy2 : yv ≤ 2 ^ 63 - 1) :
    ["x=".toList ++ intToChars xv, "y=".toList ++ intToChars yv].foldl decodeField [] =
      [("x".toList, JVal.num xv), ("y".toList, JVal.num yv)] := by
  show decodeField (decodeField [] ("x=".toList ++ intToChars xv))
    ("y=".toList ++ intToChars yv) = _
  rw [decodeField_x, parseI64_intToChars hx1 hx2]
  show decodeField [("x".toList, JVal.num xv)] ("y=".toList ++ intToChars yv) = _
  rw [decodeField_y, parseI64_intToChars hy1 hy2]
  rfl

/-- The data fold for `button=<name>;x=…;y=…` parts, for each decodable
button name. -/
theorem foldl_decode_button {bname : Chars} {bval xv yv : Int}
    (hb : bname = "left".toList ∧ bval = 1 ∨ bname = "right".toList ∧ bval = 2 ∨
      bname = "middle".toList ∧ bval = 3 ∨ bname = "unknown".toList ∧ bval = 0)
    (hx1 : -(2 ^ 63) ≤ xv) (hx2 : xv ≤ 2 ^ 63 - 1)
    (hy1 : -(2 ^ 63) ≤ yv) (hy2 : yv ≤ 2 ^ 63 - 1) :
    ["button=".toList ++ bname, "x=".toList ++ intToChars xv,
      "y=".toList ++ intToChars yv].foldl decodeField [] =
      [("button".toList, JVal.num bval), ("x".toList, JVal.num xv),
        ("y".toList, JVal.num yv)] := by
  have step : ∀ start : Jmap,
      decodeField (decodeField start ("x=".toList ++ intToChars xv))
        ("y=".toList ++ intToChars yv) =
        (start.insert "x".toList (JVal.num xv)).insert "y".toList (JVal.num yv) := by
    intro start
    rw [decodeField_x, parseI64_intToChars hx1 hx2]
    show decodeField (start.insert "x".toList (JVal.num xv)) ("y=".toList ++ intToChars yv) = _
    rw [decodeField_y, parseI64_intToChars hy1 hy2]
  rcases hb with ⟨rfl, rfl⟩ | ⟨rfl, rfl⟩ | ⟨rfl, rfl⟩ | ⟨rfl, rfl⟩ <;>
    · simp only [List.foldl_cons, List.foldl_nil]
      rw [step]
      rfl

/-! ## Canonical events and encode-side computation -/

/-- A key-name value that survives the line format: it contains no `;` (the
field separator) and does not end in whitespace (which `trim` would strip). -/
def goodName (s : Chars) : Prop :=
  (∀ c ∈ s, c ≠ ';') ∧ (∀ c, s.getLast? = some c → isWs c = false)

/-- An attribute map in the canonical shape serialized by the encoder: either
empty (all fields omitted) or exactly the attributes of the kind, with
integer attributes in `i64` range and button codes in `{1,2,3}`.
MouseScroll is excluded (its round trip is lossy by design). -/
def canonicalData (e : MacroEvent) : Prop :=
  match e.event_type with
  | .KeyDown | .KeyUp =>
    e.data = [] ∨ ∃ s, goodName s ∧ e.data = [("key_name".toList, .str s)]
  | .MouseMove =>
    e.data = [] ∨ ∃ x y : Int, (-(2 ^ 63) ≤ x ∧ x ≤ 2 ^ 63 - 1) ∧
      (-(2 ^ 63) ≤ y ∧ y ≤ 2 ^ 63 - 1) ∧
      e.data = [("x".toList, .num x), ("y".toList, .num y)]
  | .MouseDown | .MouseUp =>
    e.data = [] ∨ ∃ b x y : Int, (b = 1 ∨ b = 2 ∨ b = 3) ∧
      (-(2 ^ 63) ≤ x ∧ x ≤ 2 ^ 63 - 1) ∧ (-(2 ^ 63) ≤ y ∧ y ≤ 2 ^ 63 - 1) ∧
      e.data = [("button".toList, .num b), ("x".toList, .num x), ("y".toList, .num y)]
  | .MouseScroll => False

theorem to_mcr_line_empty (ts : FVal) (et : EventType) :
    MacroEvent.to_mcr_line ⟨ts, et, []⟩ = joinSemi [fmt6 ts, et.code] := by
  cases et <;> rfl

theorem to_mcr_line_mousemove (ts : FVal) {xv yv : Int}
    (hx1 : -(2 ^ 63) ≤ xv) (hx2 : xv ≤ 2 ^ 63 - 1)
    (hy1 : -(2 ^ 63) ≤ yv) (hy2 : yv ≤ 2 ^ 63 - 1) :
    MacroEvent.to_mcr_line ⟨ts, .MouseMove, [("x".toList, .num xv), ("y".toList, .num yv)]⟩ =
      joinSemi [fmt6 ts, EventType.MouseMove.code,
        "x=".toList ++ intToChars xv, "y=".toList ++ intToChars yv] := by
  have hgx : (Jmap.get [("x".toList, JVal.num xv), ("y".toList, JVal.num yv)]
      "x".toList).bind JVal.as_i64 = some xv := by
    show JVal.as_i64 (JVal.num xv) = some xv
    exact as_i64_num hx1 hx2
  have hgy : (Jmap.get [("x".toList, JVal.num xv), ("y".toList, JVal.num yv)]
      "y".toList).bind JVal.as_i64 = some yv := by
    show JVal.as_i64 (JVal.num yv) = some yv
    exact as_i64_num hy1 hy2
  unfold MacroEvent.to_mcr_line
  dsimp only
  rw [hgx, hgy]
  rfl

/-- The encoder's button name for a `u64` button code. -/
def buttonName (b : Int) : Chars :=
  if b = 1 then "left".toList
  else if b = 2 then "right".toList
  else if b = 3 then "middle".toList
  else "unknown".toList

theorem to_mcr_line_mousedown (ts : FVal) {b xv yv : Int}
    (hb1 : 0 ≤ b) (hb2 : b ≤ 2 ^ 64 - 1)
    (hx1 : -(2 ^ 63) ≤ xv) (hx2 : xv ≤ 2 ^ 63 - 1)
    (hy1 : -(2 ^ 63) ≤ yv) (hy2 : yv ≤ 2 ^ 63 - 1) :
    MacroEvent.to_mcr_line ⟨ts, .MouseDown,
        [("button".toList, .num b), ("x".toList, .num xv), ("y".toList, .num yv)]⟩ =
      joinSemi [fmt6 ts, EventType.MouseDown.code, "button=".toList ++ buttonName b,
        "x=".toList ++ intToChars xv, "y=".toList ++ intToChars yv] := by
  have hgx : (Jmap.get [("button".toList, JVal.num b), ("x".toList, JVal.num xv),
      ("y".toList, JVal.num yv)] "x".toList).bind JVal.as_i64 = some xv := by
    show JVal.as_i64 (JVal.num xv) = some xv
    exact as_i64_num hx1 hx2
  have hgy : (Jmap.get [("button".toList, JVal.num b), ("x".toList, JVal.num xv),
      ("y".toList, JVal.num yv)] "y".toList).bind JVal.as_i64 = some yv := by
    show JVal.as_i64 (JVal.num yv) = some yv
    exact as_i64_num hy1 hy2
  have hgb : (Jmap.get [("button".toList, JVal.num b), ("x".toList, JVal.num xv),
      ("y".toList, JVal.num yv)] "button".toList).bind JVal.as_u64 = some b := by
    show JVal.as_u64 (JVal.num b) = some b
    exact as_u64_num hb1 hb2
  unfold MacroEvent.to_mcr_line
  dsimp only
  rw [hgx, hgy, hgb]
  rfl

theorem to_mcr_line_mouseup (ts : FVal) {b xv yv : Int}
    (hb1 : 0 ≤ b) (hb2 : b ≤ 2 ^ 64 - 1)
    (hx1 : -(2 ^ 63) ≤ xv) (hx2 : xv ≤ 2 ^ 63 - 1)
    (hy1 : -(2 ^ 63) ≤ yv) (hy2 : yv ≤ 2 ^ 63 - 1) :
    MacroEvent.to_mcr_line ⟨ts, .MouseUp,
        [("button".toList, .num b), ("x".toList, .num xv), ("y".toList, .num yv)]⟩ =
      joinSemi [fmt6 ts, EventType.MouseUp.code, "button=".toList ++ buttonName b,
        "x=".toList ++ intToChars xv, "y=".toList ++ intToChars yv] := by
  have hgx : (Jmap.get [("button".toList, JVal.num b), ("x".toList, JVal.num xv),
      ("y".toList, JVal.num yv)] "x".toList).bind JVal.as_i64 = some xv := by
    show JVal.as_i64 (JVal.num xv) = some xv
    exact as_i64_num hx1 hx2
  have hgy : (Jmap.get [("button".toList, JVal.num b), ("x".toList, JVal.num xv),
      ("y".toList, JVal.num yv)] "y".toList).bind JVal.as_i64 = some yv := by
    show JVal.as_i64 (JVal.num yv) = some yv
    exact as_i64_num hy1 hy2
  have hgb : (Jmap.get [("button".toList, JVal.num b), ("x".toList, JVal.num xv),
      ("y".toList, JVal.num yv)] "button".toList).bind JVal.as_u64 = some b := by
    show JVal.as_u64 (JVal.num b) = some b
    exact as_u64_num hb1 hb2
  unfold MacroEvent.to_mcr_line
  dsimp only
  rw [hgx, hgy, hgb]
  rfl

/-! ## Part side conditions for the decode lemma -/

theorem concrete_last {l : Chars} {c0 : Char} (h : l.getLast? = some c0)
    (hws : isWs c0 = false) : ∀ c, l.getLast? = some c → isWs c = false := by
  intro c hc
  rw [h] at hc
  injection hc with hcc
  rw [← hcc]
  exact hws

theorem intToChars_ne_nil (v : Int) : intToChars v ≠ [] := by
  unfold intToChars
  split
  · simp
  · exact natToChars_ne_nil _

/-- The three decode side conditions for a part `pre ++ intToChars v` whose
prefix is free of `;`. -/
theorem intPart_conds (pre : Chars) (hpre : ∀ c ∈ pre, c ≠ ';') (v : Int) :
    (∀ c ∈ pre ++ intToChars v, c ≠ ';') ∧ pre ++ intToChars v ≠ [] ∧
      (∀ c, (pre ++ intToChars v).getLast? = some c → isWs c = false) := by
  refine ⟨?_, ?_, ?_⟩
  · intro c hc
    rcases List.mem_append.mp hc with hc | hc
    · exact hpre c hc
    · exact intToChars_no_semi v c hc
  · exact List.append_ne_nil_of_right_ne_nil _ (intToChars_ne_nil v)
  · intro c hc
    rw [List.getLast?_append, List.getLast?_eq_getLast _ (intToChars_ne_nil v)] at hc
    simp only [Option.or_some, Option.some.injEq] at hc
    exact intToChars_last_not_ws v c (by
      rw [List.getLast?_eq_getLast _ (intToChars_ne_nil v), hc])

/-- The three decode side conditions for the part `char= ++ s` with a good
key name. -/
theorem charPart_conds {s : Chars} (hs : goodName s) :
    (∀ c ∈ "char=".toList ++ s, c ≠ ';') ∧ ("char=".toList ++ s : Chars) ≠ [] ∧
      (∀ c, ("char=".toList ++ s).getLast? = some c → isWs c = false) := by
  refine ⟨?_, by simp, ?_⟩
  · intro c hc
    rcases List.mem_append.mp hc with hc | hc
    · have hconc : ∀ c' ∈ ("char=".toList : Chars), c' ≠ ';' := by decide
      exact hconc c hc
    · exact hs.1 c hc
  · intro c hc
    rw [List.getLast?_append] at hc
    cases hlast : s.getLast? with
    | some c' =>
      rw [hlast] at hc
      simp only [Option.or_some, Option.some.injEq] at hc
      rw [← hc]
      exact hs.2 c' hlast
    | none =>
      rw [hlast, show ("char=".toList : Chars).getLast? = some '=' from rfl,
        Option.none_or] at hc
      injection hc with hcc
      rw [← hcc]
      decide

theorem buttonName_conds (b : Int) :
    (∀ c ∈ "button=".toList ++ buttonName b, c ≠ ';') ∧
      ("button=".toList ++ buttonName b : Chars) ≠ [] ∧
      (∀ c, ("button=".toList ++ buttonName b).getLast? = some c → isWs c = false) := by
  unfold buttonName
  split_ifs <;>
    exact ⟨by decide, by decide, concrete_last rfl (by decide)⟩

/-! ## Round-trip assembly -/

theorem roundtrip_empty (m : Nat) (et : EventType) :
    from_mcr_line (MacroEvent.to_mcr_line ⟨.finite (mkRat (m : Int) 1000000), et, []⟩) =
      some ⟨.finite (mkRat (m : Int) 1000000), et, []⟩ := by
  rw [to_mcr_line_empty, fmt6_canonical]
  exact from_mcr_line_joinSemi m et [] (by simp) (by simp) (by simp)

theorem roundtrip_char (m : Nat) (et : EventType) {s : Chars} (hs : goodName s)
    (henc : MacroEvent.to_mcr_line
        ⟨.finite (mkRat (m : Int) 1000000), et, [("key_name".toList, .str s)]⟩ =
      joinSemi [fmt6 (.finite (mkRat (m : Int) 1000000)), et.code, "char=".toList ++ s]) :
    from_mcr_line (MacroEvent.to_mcr_line
        ⟨.finite (mkRat (m : Int) 1000000), et, [("key_name".toList, .str s)]⟩) =
      some ⟨.finite (mkRat (m : Int) 1000000), et, [("key_name".toList, .str s)]⟩ := by
  obtain ⟨h1, h2, h3⟩ := charPart_conds hs
  rw [henc, fmt6_canonical,
    from_mcr_line_joinSemi m et ["char=".toList ++ s]
      (by intro p hp; rw [List.mem_singleton.mp hp]; exact h1)
      (by intro p hp; rw [List.mem_singleton.mp hp]; exact h2)
      (by intro p hp; rw [List.mem_singleton.mp hp]; exact h3),
    foldl_decode_char]

theorem roundtrip_mousemove (m : Nat) {xv yv : Int}
    (hx1 : -(2 ^ 63) ≤ xv) (hx2 : xv ≤ 2 ^ 63 - 1)
    (hy1 : -(2 ^ 63) ≤ yv) (hy2 : yv ≤ 2 ^ 63 - 1) :
    from_mcr_line (MacroEvent.to_mcr_line ⟨.finite (mkRat (m : Int) 1000000), .MouseMove,
        [("x".toList, .num xv), ("y".toList, .num yv)]⟩) =
      some ⟨.finite (mkRat (m : Int) 1000000), .MouseMove,
        [("x".toList, .num xv), ("y".toList, .num yv)]⟩ := by
  obtain ⟨hx_semi, hx_ne, hx_ws⟩ := intPart_conds "x=".toList (by decide) xv
  obtain ⟨hy_semi, hy_ne, hy_ws⟩ := intPart_conds "y=".toList (by decide) yv
  rw [to_mcr_line_mousemove _ hx1 hx2 hy1 hy2, fmt6_canonical,
    from_mcr_line_joinSemi m .MouseMove
      ["x=".toList ++ intToChars xv, "y=".toList ++ intToChars yv]
      (by
        intro p hp
        rcases List.mem_cons.mp hp with rfl | hp
        · exact hx_semi
        · rw [List.mem_singleton.mp hp]
          exact hy_semi)
      (by
        intro p hp
        rcases List.mem_cons.mp hp with rfl | hp
        · exact hx_ne
        · rw [List.mem_singleton.mp hp]
          exact hy_ne)
      (by
        intro p hp
        rcases List.mem_cons.mp hp with rfl | hp
        · exact hx_ws
        · rw [List.mem_singleton.mp hp]
          exact hy_ws),
    foldl_decode_xy hx1 hx2 hy1 hy2]

/-- Decode of an encoded mouse-button event, for an arbitrary `u64` button
code `b`: the decoded button value is `buttonDecoded b` (the value `b` itself
for 1/2/3 and `0` otherwise). -/
def buttonDecoded (b : Int) : Int :=
  if b = 1 then 1 else if b = 2 then 2 else if b = 3 then 3 else 0

theorem buttonName_decodes (b : Int) :
    buttonName b = "left".toList ∧ buttonDecoded b = 1 ∨
      buttonName b = "right".toList ∧ buttonDecoded b = 2 ∨
      buttonName b = "middle".toList ∧ buttonDecoded b = 3 ∨
      buttonName b = "unknown".toList ∧ buttonDecoded b = 0 := by
  unfold buttonName buttonDecoded
  split_ifs <;> simp

theorem roundtrip_mousebtn (m : Nat) (et : EventType)
    (hcode : et = .MouseDown ∨ et = .MouseUp) {b xv yv : Int}
    (hb1 : 0 ≤ b) (hb2 : b ≤ 2 ^ 64 - 1)
    (hx1 : -(2 ^ 63) ≤ xv) (hx2 : xv ≤ 2 ^ 63 - 1)
    (hy1 : -(2 ^ 63) ≤ yv) (hy2 : yv ≤ 2 ^ 63 - 1) :
    from_mcr_line (MacroEvent.to_mcr_line ⟨.finite (mkRat (m : Int) 1000000), et,
        [("button".toList, .num b), ("x".toList, .num xv), ("y".toList, .num yv)]⟩) =
      some ⟨.finite (mkRat (m : Int) 1000000), et,
        [("button".toList, .num (buttonDecoded b)), ("x".toList, .num xv),
          ("y".toList, .num yv)]⟩ := by
  obtain ⟨hb_semi, hb_ne, hb_ws⟩ := buttonName_conds b
  obtain ⟨hx_semi, hx_ne, hx_ws⟩ := intPart_conds "x=".toList (by decide) xv
  obtain ⟨hy_semi, hy_ne, hy_ws⟩ := intPart_conds "y=".toList (by decide) yv
  have hmain : ∀ code : Chars,
      from_mcr_line (joinSemi [fmt6Nat m, et.code, "button=".toList ++ buttonName b,
          "x=".toList ++ intToChars xv, "y=".toList ++ intToChars yv]) =
        some ⟨.finite (mkRat (m : Int) 1000000), et,
          [("button".toList, .num (buttonDecoded b)), ("x".toList, .num xv),
            ("y".toList, .num yv)]⟩ := by
    intro _
    rw [from_mcr_line_joinSemi m et
      ["button=".toList ++ buttonName b, "x=".toList ++ intToChars xv,
        "y=".toList ++ intToChars yv]
      (by
        intro p hp
        rcases List.mem_cons.mp hp with rfl | hp
        · exact hb_semi
        · rcases List.mem_cons.mp hp with rfl | hp
          · exact hx_semi
          · rw [List.mem_singleton.mp hp]
            exact hy_semi)
      (by
        intro p hp
        rcases List.mem_cons.mp hp with rfl | hp
        · exact hb_ne
        · rcases List.mem_cons.mp hp with rfl | hp
          · exact hx_ne
          · rw [List.mem_singleton.mp hp]
            exact hy_ne)
      (by
        intro p hp
        rcases List.mem_cons.mp hp with rfl | hp
        · exact hb_ws
        · rcases List.mem_cons.mp hp with rfl | hp
          · exact hx_ws
          · rw [List.mem_singleton.mp hp]
            exact hy_ws),
      foldl_decode_button (buttonName_decodes b) hx1 hx2 hy1 hy2]
  rcases hcode with rfl | rfl
  · rw [to_mcr_line_mousedown _ hb1 hb2 hx1 hx2 hy1 hy2, fmt6_canonical]
    exact hmain "MDOWN".toList
  · rw [to_mcr_line_mouseup _ hb1 hb2 hx1 hx2 hy1 hy2, fmt6_canonical]
    exact hmain "MUP".toList

/-! ## Claim C2 -/

/-- Claim C2, counterexample: the claim `decode (encode e) = e` for every
non-MouseScroll event with only legal attribute keys fails on the code.  The
key name `;` — a canonical name, produced by `vk_code_to_string 0xBA` — is
legal for a KeyDown event, but the encoded line `0.000000;KDOWN;char=;` is
re-split at the embedded `;`, and decoding yields the empty key name instead
of `;`. -/
theorem c2_roundtrip_counterexample :
    from_mcr_line (MacroEvent.to_mcr_line
        ⟨.finite 0, .KeyDown, [("key_name".toList, .str [';'])]⟩) ≠
      some ⟨.finite 0, .KeyDown, [("key_name".toList, .str [';'])]⟩ := by
  decide

/-- Claim C2 (amended): for every MacroEvent `e` whose kind is not
MouseScroll, whose timestamp is a non-negative exact multiple of 10⁻⁶
(six-fractional-digit formatting is exact there), and whose attribute map is
in the canonical shape for its kind — empty, or exactly the kind's
attributes, with integer attributes in `i64` range, button codes in
`{1, 2, 3}`, and a key name that contains no `;` and has no trailing
whitespace — decoding the encoded line reproduces `e` exactly. -/
theorem c2_roundtrip_nonscroll (e : MacroEvent)
    (hts : ∃ m : Nat, e.timestamp = .finite (mkRat (m : Int) 1000000))
    (hdata : canonicalData e) :
    from_mcr_line e.to_mcr_line = some e := by
  obtain ⟨m, hm⟩ := hts
  obtain ⟨ts, et, data⟩ := e
  simp only at hm
  subst hm
  cases et with
  | KeyDown =>
    rcases hdata with rfl | ⟨s, hs, heq⟩
    · exact roundtrip_empty m .KeyDown
    · simp only at heq
      subst heq
      exact roundtrip_char m .KeyDown hs rfl
  | KeyUp =>
    rcases hdata with rfl | ⟨s, hs, heq⟩
    · exact roundtrip_empty m .KeyUp
    · simp only at heq
      subst heq
      exact roundtrip_char m .KeyUp hs rfl
  | MouseMove =>
    rcases hdata with rfl | ⟨xv, yv, hx, hy, heq⟩
    · exact roundtrip_empty m .MouseMove
    · simp only at heq
      subst heq
      exact roundtrip_mousemove m hx.1 hx.2 hy.1 hy.2
  | MouseDown =>
    rcases hdata with rfl | ⟨b, xv, yv, hb, hx, hy, heq⟩
    · exact roundtrip_empty m .MouseDown
    · simp only at heq
      subst heq
      have hdec : buttonDecoded b = b := by
        unfold buttonDecoded
        rcases hb with rfl | rfl | rfl <;> simp
      have := roundtrip_mousebtn m .MouseDown (Or.inl rfl)
        (b := b) (by rcases hb with rfl | rfl | rfl <;> norm_num)
        (by rcases hb with rfl | rfl | rfl <;> norm_num) hx.1 hx.2 hy.1 hy.2
      rw [hdec] at this
      exact this
  | MouseUp =>
    rcases hdata with rfl | ⟨b, xv, yv, hb, hx, hy, heq⟩
    · exact roundtrip_empty m .MouseUp
    · simp only at heq
      subst heq
      have hdec : buttonDecoded b = b := by
        unfold buttonDecoded
        rcases hb with rfl | rfl | rfl <;> simp
      have := roundtrip_mousebtn m .MouseUp (Or.inr rfl)
        (b := b) (by rcases hb with rfl | rfl | rfl <;> norm_num)
        (by rcases hb with rfl | rfl | rfl <;> norm_num) hx.1 hx.2 hy.1 hy.2
      rw [hdec] at this
      exact this
  | MouseScroll => exact absurd hdata (by simp [canonicalData])

/-- Claim C2, witness: the round trip at the spec's own scenario event
`{timestamp 1.234567, KeyDown, key_name "a"}`. -/
theorem c2_roundtrip_nonscroll_witness :
    from_mcr_line (MacroEvent.to_mcr_line ⟨.finite (mkRat (1234567 : Int) 1000000), .KeyDown,
        [("key_name".toList, .str "a".toList)]⟩) =
      some ⟨.finite (mkRat (1234567 : Int) 1000000), .KeyDown,
        [("key_name".toList, .str "a".toList)]⟩ :=
  c2_roundtrip_nonscroll _ ⟨1234567, rfl⟩
    (Or.inr ⟨"a".toList, ⟨by decide, concrete_last rfl (by decide)⟩, rfl⟩)

/-! ## Claim C8 -/

/-- Claim C8, counterexample: for a MouseDown event with the numeric button
code `-1` (and `x = 5`, `y = 6`), the round trip does not collapse the button
to `0` as the claim states: `serde_json`'s `as_u64` fails on a negative
number, so the encoder omits all three data fields and decoding yields an
event with an empty attribute map instead. -/
theorem c8_button_counterexample :
    from_mcr_line (MacroEvent.to_mcr_line ⟨.finite 0, .MouseDown,
        [("button".toList, .num (-1)), ("x".toList, .num 5), ("y".toList, .num 6)]⟩) =
      some ⟨.finite 0, .MouseDown, []⟩ ∧
    (⟨.finite 0, .MouseDown, []⟩ : MacroEvent) ≠
      ⟨.finite 0, .MouseDown,
        [("button".toList, .num 0), ("x".toList, .num 5), ("y".toList, .num 6)]⟩ := by
  decide

/-- Claim C8 (amended): for every MouseDown or MouseUp event with a canonical
timestamp, `i64`-range coordinates and a button code in the `u64` range
(`as_u64` requires a non-negative code; a negative code makes the encoder
omit all data fields instead): if the code is 1, 2 or 3 the round trip is
exact, and for any other such code the round trip yields the same event with
the button attribute collapsed to 0. -/
theorem c8_button_roundtrip (m : Nat) (et : EventType)
    (het : et = .MouseDown ∨ et = .MouseUp) {b xv yv : Int}
    (hb1 : 0 ≤ b) (hb2 : b ≤ 2 ^ 64 - 1)
    (hx1 : -(2 ^ 63) ≤ xv) (hx2 : xv ≤ 2 ^ 63 - 1)
    (hy1 : -(2 ^ 63) ≤ yv) (hy2 : yv ≤ 2 ^ 63 - 1) :
    (b = 1 ∨ b = 2 ∨ b = 3 →
      from_mcr_line (MacroEvent.to_mcr_line ⟨.finite (mkRat (m : Int) 1000000), et,
          [("button".toList, .num b), ("x".toList, .num xv), ("y".toList, .num yv)]⟩) =
        some ⟨.finite (mkRat (m : Int) 1000000), et,
          [("button".toList, .num b), ("x".toList, .num xv), ("y".toList, .num yv)]⟩) ∧
    (¬(b = 1 ∨ b = 2 ∨ b = 3) →
      from_mcr_line (MacroEvent.to_mcr_line ⟨.finite (mkRat (m : Int) 1000000), et,
          [("button".toList, .num b), ("x".toList, .num xv), ("y".toList, .num yv)]⟩) =
        some ⟨.finite (mkRat (m : Int) 1000000), et,
          [("button".toList, .num 0), ("x".toList, .num xv), ("y".toList, .num yv)]⟩) := by
  constructor
  · intro hb
    have hdec : buttonDecoded b = b := by
      unfold buttonDecoded
      rcases hb with rfl | rfl | rfl <;> simp
    have h := roundtrip_mousebtn m et het hb1 hb2 hx1 hx2 hy1 hy2
    rw [hdec] at h
    exact h
  · intro hb
    push_neg at hb
    have hdec : buttonDecoded b = 0 := by
      unfold buttonDecoded
      rw [if_neg hb.1, if_neg hb.2.1, if_neg hb.2.2]
    have h := roundtrip_mousebtn m et het hb1 hb2 hx1 hx2 hy1 hy2
    rw [hdec] at h
    exact h

/-- Claim C8, witness: button code 2 round-trips exactly, and button code 7
collapses to 0. -/
theorem c8_button_roundtrip_witness :
    from_mcr_line (MacroEvent.to_mcr_line ⟨.finite (mkRat (2000000 : Int) 1000000), .MouseDown,
        [("button".toList, .num 2), ("x".toList, .num 100), ("y".toList, .num 200)]⟩) =
      some ⟨.finite (mkRat (2000000 : Int) 1000000), .MouseDown,
        [("button".toList, .num 2), ("x".toList, .num 100), ("y".toList, .num 200)]⟩ ∧
    from_mcr_line (MacroEvent.to_mcr_line ⟨.finite (mkRat (0 : Int) 1000000), .MouseUp,
        [("button".toList, .num 7), ("x".toList, .num 1), ("y".toList, .num 2)]⟩) =
      some ⟨.finite (mkRat (0 : Int) 1000000), .MouseUp,
        [("button".toList, .num 0), ("x".toList, .num 1), ("y".toList, .num 2)]⟩ :=
  ⟨(c8_button_roundtrip 2000000 .MouseDown (Or.inl rfl) (by norm_num) (by norm_num)
      (by norm_num) (by norm_num) (by norm_num) (by norm_num)).1 (by norm_num),
    (c8_button_roundtrip 0 .MouseUp (Or.inr rfl) (by norm_num) (by norm_num)
      (by norm_num) (by norm_num) (by norm_num) (by norm_num)).2 (by norm_num)⟩

/-! ## Claim C3 -/

/-- Claim C3, counterexample: the code does not reject negative, NaN or
infinite timestamps — `parse::<f64>()` accepts `-1`, `nan` and `inf`, and
`from_mcr_line` performs no finiteness or sign check, so these lines decode
to events instead of nothing. -/
theorem c3_reject_counterexample :
    from_mcr_line "-1;KDOWN".toList = some ⟨.finite (-1), .KeyDown, []⟩ ∧
    from_mcr_line "nan;KDOWN".toList = some ⟨.nan, .KeyDown, []⟩ ∧
    from_mcr_line "inf;KDOWN".toList = some ⟨.inf, .KeyDown, []⟩ := by
  decide

/-- Claim C3 (amended): `decode` returns nothing — and, being a total
function, never throws — for blank lines, comment lines starting with `#`,
lines with fewer than two fields, lines whose first field does not parse as
an `f64` at all, and lines with unknown type codes; but a first field that
parses as a negative, NaN or infinite `f64` is accepted, not rejected. -/
theorem c3_reject_amended (l : Chars) :
    (trimChars l = [] → from_mcr_line l = none) ∧
    ((trimChars l).head? = some '#' → from_mcr_line l = none) ∧
    (∀ p, (trimChars l).splitOn ';' = [p] → from_mcr_line l = none) ∧
    (∀ p0 p1 rest, (trimChars l).splitOn ';' = p0 :: p1 :: rest →
      (parseFloat p0 = none → from_mcr_line l = none) ∧
      (EventType.fromCode p1 = none → from_mcr_line l = none)) := by
  refine ⟨?_, ?_, ?_, ?_⟩
  · intro h
    simp [from_mcr_line, h]
  · intro h
    by_cases hemp : (trimChars l).isEmpty
    · simp [from_mcr_line, hemp]
    · simp [from_mcr_line, hemp, h]
  · intro p hp
    by_cases hemp : (trimChars l).isEmpty
    · simp [from_mcr_line, hemp]
    · by_cases hhash : (trimChars l).head? = some '#'
      · simp [from_mcr_line, hemp, hhash]
      · simp only [from_mcr_line, hemp, Bool.false_eq_true, if_false, hhash, hp]
  · intro p0 p1 rest hsplit
    by_cases hemp : (trimChars l).isEmpty
    · constructor <;> (intro _; simp [from_mcr_line, hemp])
    · by_cases hhash : (trimChars l).head? = some '#'
      · constructor <;> (intro _; simp [from_mcr_line, hemp, hhash])
      · constructor <;>
          · intro hnone
            simp only [from_mcr_line, hemp, Bool.false_eq_true, if_false, hhash, hsplit, hnone]
            try first
              | rfl
              | (cases parseFloat p0 <;> rfl)

/-- Claim C3, witness: concrete blank, comment, single-field, non-numeric
and unknown-code lines all decode to nothing. -/
theorem c3_reject_amended_witness :
    from_mcr_line "   ".toList = none ∧
    from_mcr_line "# comment".toList = none ∧
    from_mcr_line "hello world".toList = none ∧
    from_mcr_line "abc;KDOWN".toList = none ∧
    from_mcr_line "1.0;WHAT;x=3".toList = none :=
  ⟨(c3_reject_amended _).1 (by decide),
    (c3_reject_amended _).2.1 (by decide),
    (c3_reject_amended _).2.2.1 "hello world".toList (by decide),
    ((c3_reject_amended _).2.2.2 "abc".toList "KDOWN".toList [] (by decide)).1 (by decide),
    ((c3_reject_amended _).2.2.2 "1.0".toList "WHAT".toList ["x=3".toList]
      (by decide)).2 (by decide)⟩

/-! ## Claim C10 -/

theorem get_insert (data : Jmap) (k k' : Chars) (v : JVal) :
    Jmap.get (data.insert k v) k' = if k' = k then some v else data.get k' := by
  induction data with
  | nil =>
    show (if k' = k then some v else (none : Option JVal)) = _
    rfl
  | cons kv rest ih =>
    obtain ⟨k0, v0⟩ := kv
    have hins : Jmap.insert ((k0, v0) :: rest) k v =
        if ltChars k k0 then (k, v) :: (k0, v0) :: rest
        else if k = k0 then (k, v) :: rest
        else (k0, v0) :: Jmap.insert rest k v := rfl
    rw [hins]
    by_cases h1 : ltChars k k0 <;> by_cases h2 : k = k0 <;> by_cases h3 : k' = k0 <;>
      by_cases h4 : k' = k <;>
      simp_all [Jmap.get]

/-- Decode never stores a numeric value under the key `delta`: `delta` is not
one of the recognized numeric keys, so a literal `delta=…` field falls into
the verbatim-string branch. -/
def deltaSafe (data : Jmap) : Prop :=
  ∀ n : Int, data.get "delta".toList ≠ some (.num n)

theorem decodeField_deltaSafe {data : Jmap} (h : deltaSafe data) (part : Chars) :
    deltaSafe (decodeField data part) := by
  unfold decodeField
  cases hsp : splitOnceAt '=' part with
  | none => exact h
  | some kv =>
    obtain ⟨k, v⟩ := kv
    dsimp only
    split
    · intro n
      rw [get_insert, if_neg (by decide)]
      exact h n
    · split
      · next hk =>
        cases hme : parseI64 v with
        | none => exact h
        | some nv =>
          intro n
          rcases hk with rfl | rfl | rfl | rfl <;>
            · rw [get_insert, if_neg (by decide)]
              exact h n
      · split
        · next hk =>
          subst hk
          intro n
          rw [get_insert, if_neg (by decide)]
          exact h n
        · intro n
          rw [get_insert]
          split
          · simp
          · exact h n

theorem foldl_deltaSafe (parts : List Chars) :
    ∀ {data : Jmap}, deltaSafe data → deltaSafe (parts.foldl decodeField data) := by
  induction parts with
  | nil => exact fun h => h
  | cons p ps ih =>
    intro data h
    exact ih (decodeField_deltaSafe h p)

theorem from_mcr_line_data {l : Chars} {e : MacroEvent} (h : from_mcr_line l = some e) :
    ∃ rest : List Chars, e.data = rest.foldl decodeField [] := by
  unfold from_mcr_line at h
  by_cases hemp : (trimChars l).isEmpty
  · simp [hemp] at h
  · by_cases hhash : (trimChars l).head? = some '#'
    · simp [hemp, hhash] at h
    · simp only [hemp, Bool.false_eq_true, if_false, hhash] at h
      rcases hsp : (trimChars l).splitOn ';' with _ | ⟨p0, _ | ⟨p1, rest⟩⟩ <;>
        rw [hsp] at h <;> dsimp only at h
      · exact absurd h (by simp)
      · exact absurd h (by simp)
      · cases hpf : parseFloat p0 with
        | none => rw [hpf] at h; exact absurd h (by simp)
        | some ts =>
          cases hfc : EventType.fromCode p1 with
          | none => rw [hpf, hfc] at h; exact absurd h (by simp)
          | some et =>
            rw [hpf, hfc] at h
            simp only [Option.some.injEq] at h
            exact ⟨rest, by rw [← h]⟩

/-- Claim C10, counterexample: `decode` of the scroll line
`0;MSCROLL;delta=3` produces a MouseScroll event that carries a `delta`
attribute (kept verbatim as a string) and no `dx`/`dy` attributes at all —
contradicting the claim that every decoded scroll event carries `dx` and
`dy` and never `delta`. -/
theorem c10_scroll_counterexample :
    from_mcr_line "0;MSCROLL;delta=3".toList =
      some ⟨.finite 0, .MouseScroll, [("delta".toList, .str "3".toList)]⟩ ∧
    Jmap.get [("delta".toList, JVal.str "3".toList)] "dx".toList = none ∧
    Jmap.get [("delta".toList, JVal.str "3".toList)] "dy".toList = none := by
  decide

/-- Claim C10 (amended): decode maps encoded scroll fields `dx`/`dy` to
numeric attributes of those names and never stores a numeric `delta`
attribute (a literal `delta=…` field survives only as a string); since both
re-encoding and playback read only the numeric `delta` attribute, every
MouseScroll event obtained from `decode` issues no injection command at all
when executed, and re-encodes as a line with no data fields. -/
theorem c10_scroll_amended (l : Chars) (e : MacroEvent)
    (hdec : from_mcr_line l = some e) (het : e.event_type = .MouseScroll) :
    (∀ n : Int, e.data.get "delta".toList ≠ some (.num n)) ∧
    execute_event e = [] ∧
    MacroEvent.to_mcr_line e = fmt6 e.timestamp ++ ';' :: "MSCROLL".toList := by
  obtain ⟨rest, hdata⟩ := from_mcr_line_data hdec
  have hsafe : deltaSafe e.data := by
    rw [hdata]
    exact foldl_deltaSafe rest (by intro n; simp [Jmap.get])
  have hdelta_bind : (e.data.get "delta".toList).bind JVal.as_i64 = none := by
    cases hg : e.data.get "delta".toList with
    | none => rfl
    | some v =>
      cases v with
      | str s => rfl
      | num n => exact absurd hg (hsafe n)
  obtain ⟨ts, et, data⟩ := e
  simp only at het hdelta_bind ⊢
  subst het
  refine ⟨hsafe, ?_, ?_⟩
  · unfold execute_event
    dsimp only
    rw [hdelta_bind]
    cases (Jmap.get data "x".toList).bind JVal.as_i64 <;>
      cases (Jmap.get data "y".toList).bind JVal.as_i64 <;> rfl
  · unfold MacroEvent.to_mcr_line
    dsimp only
    rw [hdelta_bind]
    cases (Jmap.get data "x".toList).bind JVal.as_i64 <;>
      cases (Jmap.get data "y".toList).bind JVal.as_i64 <;> rfl

/-- Claim C10, witness: the amended claim at the concrete line
`0;MSCROLL;delta=3`. -/
theorem c10_scroll_amended_witness :
    (∀ n : Int, Jmap.get [("delta".toList, JVal.str "3".toList)] "delta".toList ≠
      some (.num n)) ∧
    execute_event ⟨.finite 0, .MouseScroll, [("delta".toList, .str "3".toList)]⟩ = [] ∧
    MacroEvent.to_mcr_line ⟨.finite 0, .MouseScroll, [("delta".toList, .str "3".toList)]⟩ =
      fmt6 (.finite 0) ++ ';' :: "MSCROLL".toList :=
  c10_scroll_amended "0;MSCROLL;delta=3".toList
    ⟨.finite 0, .MouseScroll, [("delta".toList, .str "3".toList)]⟩ (by decide) rfl

/-! ## Claim C5: the timestamp order and the stable sort -/

theorem fle_refl (a : FVal) : a.fle a = true := by
  cases a <;> simp [FVal.fle]

theorem fle_total (a b : FVal) : a.fle b = true ∨ b.fle a = true := by
  cases a <;> cases b <;> simp [FVal.fle] <;> exact le_total _ _

theorem fle_trans {a b c : FVal} (h1 : a.fle b = true) (h2 : b.fle c = true) :
    a.fle c = true := by
  cases a <;> cases b <;> cases c <;> simp [FVal.fle] at * <;> exact le_trans h1 h2

theorem insertByTs_perm (e : MacroEvent) (l : List MacroEvent) :
    (insertByTs e l).Perm (e :: l) := by
  induction l with
  | nil => exact List.Perm.refl _
  | cons x xs ih =>
    unfold insertByTs
    split
    · exact List.Perm.refl _
    · exact (ih.cons x).trans (List.Perm.swap e x xs)

theorem insertByTs_sorted {l : List MacroEvent} (e : MacroEvent)
    (hl : l.Pairwise (fun a b => tsLe a b = true)) :
    (insertByTs e l).Pairwise (fun a b => tsLe a b = true) := by
  induction l with
  | nil => simpa [insertByTs] using List.pairwise_singleton _ e
  | cons x xs ih =>
    unfold insertByTs
    split
    · next hle =>
      refine List.Pairwise.cons ?_ hl
      intro y hy
      rcases List.mem_cons.mp hy with rfl | hy
      · exact hle
      · exact fle_trans hle (List.rel_of_pairwise_cons hl hy)
    · next hnle =>
      have hxe : tsLe x e = true := by
        rcases fle_total e.timestamp x.timestamp with h | h
        · exact absurd h (by simpa [tsLe] using hnle)
        · exact h
      refine List.Pairwise.cons ?_ (ih hl.tail)
      intro y hy
      have hy' := (insertByTs_perm e xs).mem_iff.mp hy
      rcases List.mem_cons.mp hy' with rfl | hy'
      · exact hxe
      · exact List.rel_of_pairwise_cons hl hy'

theorem sortStable_perm (l : List MacroEvent) : (sortStable l).Perm l := by
  induction l with
  | nil => exact List.Perm.refl _
  | cons x xs ih =>
    unfold sortStable
    exact (insertByTs_perm x _).trans (ih.cons x)

theorem sortStable_sorted (l : List MacroEvent) :
    (sortStable l).Pairwise (fun a b => tsLe a b = true) := by
  induction l with
  | nil => exact List.Pairwise.nil
  | cons x xs ih => exact insertByTs_sorted x ih

/-- Events with a given timestamp. -/
def sameTs (t : FVal) (e : MacroEvent) : Bool := e.timestamp = t

theorem insertByTs_filter_pos {e : MacroEvent} {t : FVal} (he : e.timestamp = t)
    (l : List MacroEvent) :
    (insertByTs e l).filter (sameTs t) = e :: l.filter (sameTs t) := by
  induction l with
  | nil => simp [insertByTs, List.filter, sameTs, he]
  | cons x xs ih =>
    unfold insertByTs
    split
    · rw [List.filter_cons, if_pos (by simp [sameTs, he])]
    · next hnle =>
      have hx : sameTs t x = false := by
        rcases hxt : decide (x.timestamp = t) with _ | _
        · simpa [sameTs] using of_decide_eq_false hxt
        · exfalso
          have hxt' := of_decide_eq_true hxt
          apply hnle
          show e.timestamp.fle x.timestamp = true
          rw [he, hxt']
          exact fle_refl t
      rw [List.filter_cons, if_neg (by simp [hx]), ih, List.filter_cons,
        if_neg (by simp [hx])]

theorem insertByTs_filter_neg {e : MacroEvent} {t : FVal} (he : ¬e.timestamp = t)
    (l : List MacroEvent) :
    (insertByTs e l).filter (sameTs t) = l.filter (sameTs t) := by
  have hes : sameTs t e = false := by simp [sameTs, he]
  induction l with
  | nil => simp [insertByTs, List.filter, hes]
  | cons x xs ih =>
    unfold insertByTs
    split
    · rw [List.filter_cons, if_neg (by simp [hes])]
    · rw [List.filter_cons, ih, List.filter_cons]

theorem sortStable_filter (t : FVal) (l : List MacroEvent) :
    (sortStable l).filter (sameTs t) = l.filter (sameTs t) := by
  induction l with
  | nil => rfl
  | cons x xs ih =>
    show (insertByTs x (sortStable xs)).filter (sameTs t) = _
    by_cases hx : x.timestamp = t
    · rw [insertByTs_filter_pos hx, ih, List.filter_cons, if_pos (by simp [sameTs, hx])]
    · rw [insertByTs_filter_neg hx, ih, List.filter_cons, if_neg (by simp [sameTs, hx])]

/-- Claim C5: after a successful `load_from_file`, the stored timeline is the
decoded event sequence stably sorted by non-decreasing timestamp — it is
sorted, it is a permutation of the decoded events, and events with equal
timestamps keep their file order (the filter at every timestamp is
unchanged) — the cursor is reset to 0, the state is Idle, and the returned
count is the timeline length.  (On this code path timestamps contain no NaN,
so `tsLe` coincides with the `partial_cmp` order used by the sort.) -/
theorem c5_load_sorted (p p' : MacroPlayer) (content : Chars) (n : Nat)
    (h : p.load_from_file content = .ok (p', n)) :
    p'.events.Pairwise (fun a b => tsLe a b = true) ∧
    p'.events.Perm (decode_lines content) ∧
    (∀ t : FVal, p'.events.filter (sameTs t) = (decode_lines content).filter (sameTs t)) ∧
    p'.current_position = 0 ∧ p'.state = .Idle ∧ n = p'.events.length := by
  unfold MacroPlayer.load_from_file at h
  dsimp only at h
  cases hs : sort_by_timestamp (decode_lines content) with
  | panicked => rw [hs] at h; exact absurd h (by simp)
  | ok sorted =>
    rw [hs] at h
    simp only [PanicOr.ok.injEq, Prod.mk.injEq] at h
    obtain ⟨hp', hn⟩ := h
    have hsorted : sorted = sortStable (decode_lines content) := by
      unfold sort_by_timestamp at hs
      split at hs
      · exact absurd hs (by simp)
      · injection hs with hss
        exact hss.symm
    subst hsorted
    refine ⟨?_, ?_, ?_, ?_, ?_, ?_⟩
    · rw [← hp']
      exact sortStable_sorted _
    · rw [← hp']
      exact sortStable_perm _
    · intro t
      rw [← hp']
      exact sortStable_filter t _
    · rw [← hp']
    · rw [← hp']
    · rw [← hp', ← hn]

/-- The concrete two-event timeline used by the C5 witness. -/
def w5events : List MacroEvent :=
  [⟨.finite (mkRat 1 2), .MouseMove, [("x".toList, JVal.num 1), ("y".toList, JVal.num 2)]⟩,
    ⟨.finite (mkRat 3 2), .KeyDown, [("key_name".toList, JVal.str "a".toList)]⟩]

/-- The concrete out-of-order file content used by the C5 witness. -/
def w5content : Chars := "1.5;KDOWN;char=a\n0.5;MMOVE;x=1;y=2".toList

/-- The player state after the C5 witness load. -/
def w5player : MacroPlayer := ⟨w5events, .Idle, 0, 1, 0⟩

/-- Claim C5, witness: loading a two-line file written out of timestamp
order yields the sorted timeline with cursor 0 and state Idle. -/
theorem c5_load_sorted_witness :
    w5player.events.Pairwise (fun a b => tsLe a b = true) ∧
    w5player.events.Perm (decode_lines w5content) ∧
    (∀ t : FVal, w5player.events.filter (sameTs t) =
      (decode_lines w5content).filter (sameTs t)) ∧
    w5player.current_position = 0 ∧ w5player.state = .Idle ∧
    2 = w5player.events.length :=
  c5_load_sorted MacroPlayer.new w5player w5content 2 (by decide)

/-! ## Claim C9 -/

set_option maxRecDepth 100000 in
/-- Claim C9: the key-name table is bidirectional — for every platform
virtual-key code (Windows `KBDLLHOOKSTRUCT.vkCode` values are single-byte,
1..254, so all codes below 256 are covered), mapping the code to its
canonical name with the capture-side table (`hooks.rs` `vk_code_to_string`)
and mapping that name back with the playback-side table (`player.rs`
`key_name_to_vk_code`) returns the original code.  This covers the letter,
digit, `f1`..`f12`, named control key, punctuation and `vk_<code>` fallback
rows of the table. -/
theorem c9_key_table_roundtrip :
    ∀ c : Nat, c < 256 → key_name_to_vk_code (vk_code_to_string c) = some c := by
  decide

/-- Claim C9, witness: the round trip at the letter `A` (0x41), at `F1`
(0x70), and at the unmapped code 199 (`vk_199`). -/
theorem c9_key_table_roundtrip_witness :
    key_name_to_vk_code (vk_code_to_string 65) = some 65 ∧
    key_name_to_vk_code (vk_code_to_string 112) = some 112 ∧
    key_name_to_vk_code (vk_code_to_string 199) = some 199 :=
  ⟨c9_key_table_roundtrip 65 (by decide), c9_key_table_roundtrip 112 (by decide),
    c9_key_table_roundtrip 199 (by decide)⟩

/-! ## Claims C1, C4, C6, C7: the playback loop and the player state -/

/-- A five-event timeline of mouse moves (timestamps 0..4 seconds). -/
def fiveMoves : List MacroEvent :=
  [⟨.finite 0, .MouseMove, [("x".toList, JVal.num 0), ("y".toList, JVal.num 0)]⟩,
    ⟨.finite 1, .MouseMove, [("x".toList, JVal.num 1), ("y".toList, JVal.num 1)]⟩,
    ⟨.finite 2, .MouseMove, [("x".toList, JVal.num 2), ("y".toList, JVal.num 2)]⟩,
    ⟨.finite 3, .MouseMove, [("x".toList, JVal.num 3), ("y".toList, JVal.num 3)]⟩,
    ⟨.finite 4, .MouseMove, [("x".toList, JVal.num 4), ("y".toList, JVal.num 4)]⟩]

/-- A player in the Playing state with the five-event timeline loaded and
one scheduling loop spawned (the state reached by `load_from_file` followed
by `start()`). -/
def p1playing : MacroPlayer := ⟨fiveMoves, .Playing, 0, 1, 1⟩

/-- A player in the Idle state with the five-event timeline loaded (the
state reached by `load_from_file`). -/
def p6loaded : MacroPlayer := ⟨fiveMoves, .Idle, 0, 1, 0⟩

/-- Claim C1 (code bug): `stop()` does not terminate the scheduling loop.
The spawned thread runs `play_events` on a clone of the timeline with no
handle to the shared player state (`play_events` takes no player argument at
all), and `stop()` (player.rs:106-112) merely sets the state field — to
`Stopped`, not `Idle` as the spec requires — which nothing in the loop
reads.  Consequently, with five events unplayed, all five injection commands
are still executed after `stop()`. -/
theorem c1_stop_not_observed :
    MacroPlayer.stop p1playing = ⟨fiveMoves, .Stopped, 0, 1, 1⟩ ∧
    (MacroPlayer.stop p1playing).state ≠ .Idle ∧
    play_events (MacroPlayer.stop p1playing).events
        (MacroPlayer.stop p1playing).playback_speed =
      [.setCursorPos 0 0, .setCursorPos 1 1, .setCursorPos 2 2,
        .setCursorPos 3 3, .setCursorPos 4 4] := by
  decide

/-- Claim C4 (code bug): `load_from_file` can terminate the process.  Rust's
`f64` parser accepts `nan`, so both lines of this file decode; the sort's
comparator `partial_cmp(..).unwrap()` (player.rs:55) then panics because NaN
is incomparable. -/
theorem c4_load_panics_on_nan :
    MacroPlayer.new.load_from_file "nan;KDOWN\n0;KDOWN".toList = .panicked := by
  decide

/-- Claim C6 (code bug): `start()` performs no state check: called while the
player is already Playing with a loop in flight, it neither rejects the call
nor cancels the previous loop (no cancellation channel exists), and simply
spawns a second concurrent scheduling loop. -/
theorem c6_double_start_spawns_second_loop :
    (p6loaded.start).state = .Playing ∧ (p6loaded.start).spawned_loops = 1 ∧
    ((p6loaded.start).start).state = .Playing ∧
    ((p6loaded.start).start).spawned_loops = 2 := by
  decide

/-- Claim C7 (code bug): the scheduling loop never advances
`current_position`.  The loop runs on a clone of the events with no
reference to the player (player.rs:77-81, 126-152); `current_position` is
written only by `load_from_file` and `start()` (both set it to 0).  After
the loop has executed all five events (five injection commands),
`get_current_position()` still returns 0, not 5. -/
theorem c7_position_never_advances :
    (play_events (p6loaded.start).events (p6loaded.start).playback_speed).length = 5 ∧
    (p6loaded.start).get_current_position = 0 ∧
    (p6loaded.start).get_current_position ≠ 5 := by
  decide

end MacroRecorder
